import Mathlib

/-!
Shallow embedding of the igir reconciliation core: the DAT merger/splitter
(`DATMergerSplitter`), the file indexer (`FileIndexer`), the fixdat generator
(`FixdatCreator`, two revisions), and the path sanitizer (`fsPoly.makeLegal`).
Pure data and list manipulation are translated from the TypeScript source;
progress-bar reporting, logging and filesystem writes are out of scope.
JavaScript `Array#sort` is a stable sort with a numeric comparator; it is
modelled by `List.insertionSort` over the non-strict relation "comparator
result is not `gt`", which is the unique stable sort.
-/

namespace Igir

/-! ## Generic comparator infrastructure

JavaScript comparators return negative/zero/positive numbers; they are
modelled as `Ordering`-valued functions.  Every comparator in the source is
(provably) a lexicographic comparison of `Nat`-list keys, so the order-theoretic
facts (swap, transitivity, reflexivity of `eq`) are established once for
`cmpLexNat` and transported. -/

/-- Three-way comparison of naturals. -/
def cmpNat (a b : Nat) : Ordering :=
  if a < b then .lt else if b < a then .gt else .eq

/-- Lexicographic three-way comparison of lists of naturals; a strict prefix
compares as smaller. -/
def cmpLexNat : List Nat → List Nat → Ordering
  | [], [] => .eq
  | [], _ :: _ => .lt
  | _ :: _, [] => .gt
  | a :: as, b :: bs => (cmpNat a b).then (cmpLexNat as bs)

theorem lt_then (o : Ordering) : Ordering.lt.then o = .lt := rfl

theorem gt_then (o : Ordering) : Ordering.gt.then o = .gt := rfl

theorem eq_then (o : Ordering) : Ordering.eq.then o = o := rfl

theorem cmpNat_lt_iff (a b : Nat) : cmpNat a b = .lt ↔ a < b := by
  unfold cmpNat
  split_ifs with h1 h2
  · simp [h1]
  · simp only [reduceCtorEq, false_iff]; omega
  · simp only [reduceCtorEq, false_iff]; omega

theorem cmpNat_gt_iff (a b : Nat) : cmpNat a b = .gt ↔ b < a := by
  unfold cmpNat
  split_ifs with h1 h2
  · simp only [reduceCtorEq, false_iff]; omega
  · simp [h2]
  · simp only [reduceCtorEq, false_iff]; omega

theorem cmpNat_eq_iff (a b : Nat) : cmpNat a b = .eq ↔ a = b := by
  unfold cmpNat
  split_ifs with h1 h2
  · simp only [reduceCtorEq, false_iff]; omega
  · simp only [reduceCtorEq, false_iff]; omega
  · simp only [true_iff]; omega

theorem cmpNat_swap (a b : Nat) : cmpNat b a = (cmpNat a b).swap := by
  rcases h : cmpNat a b with _ | _ | _
  · rw [cmpNat_lt_iff] at h
    rw [(cmpNat_gt_iff b a).mpr h]; rfl
  · rw [cmpNat_eq_iff] at h
    subst h
    rw [(cmpNat_eq_iff a a).mpr rfl]; rfl
  · rw [cmpNat_gt_iff] at h
    rw [(cmpNat_lt_iff b a).mpr h]; rfl

theorem cmpNat_lt_trans {a b c : Nat} (h₁ : cmpNat a b = .lt) (h₂ : cmpNat b c = .lt) :
    cmpNat a c = .lt := by
  rw [cmpNat_lt_iff] at h₁ h₂ ⊢
  omega

theorem cmpLexNat_eq_iff (a b : List Nat) : cmpLexNat a b = .eq ↔ a = b := by
  induction a generalizing b with
  | nil =>
    cases b with
    | nil => simp [show cmpLexNat [] [] = .eq from rfl]
    | cons y ys => simp [show cmpLexNat [] (y :: ys) = .lt from rfl]
  | cons x xs ih =>
    cases b with
    | nil => simp [show cmpLexNat (x :: xs) [] = .gt from rfl]
    | cons y ys =>
      simp only [cmpLexNat, List.cons.injEq]
      rcases h : cmpNat x y with _ | _ | _
      · rw [lt_then]
        simp only [reduceCtorEq, false_iff, not_and]
        rintro rfl
        rw [(cmpNat_eq_iff x x).mpr rfl] at h
        cases h
      · rw [eq_then, ih]
        rw [cmpNat_eq_iff] at h
        simp [h]
      · rw [gt_then]
        simp only [reduceCtorEq, false_iff, not_and]
        rintro rfl
        rw [(cmpNat_eq_iff x x).mpr rfl] at h
        cases h

theorem cmpLexNat_swap (a b : List Nat) : cmpLexNat b a = (cmpLexNat a b).swap := by
  induction a generalizing b with
  | nil =>
    cases b with
    | nil => rfl
    | cons y ys => rfl
  | cons x xs ih =>
    cases b with
    | nil => rfl
    | cons y ys =>
      show (cmpNat y x).then (cmpLexNat ys xs) = ((cmpNat x y).then (cmpLexNat xs ys)).swap
      rw [cmpNat_swap x y, ih]
      rcases cmpNat x y <;> rcases cmpLexNat xs ys <;> rfl

theorem cmpLexNat_lt_trans {a b c : List Nat} (h₁ : cmpLexNat a b = .lt)
    (h₂ : cmpLexNat b c = .lt) : cmpLexNat a c = .lt := by
  induction a generalizing b c with
  | nil =>
    cases b with
    | nil => exact h₂
    | cons y ys =>
      cases c with
      | nil => cases h₂
      | cons z zs => rfl
  | cons x xs ih =>
    cases b with
    | nil => cases h₁
    | cons y ys =>
      cases c with
      | nil => cases h₂
      | cons z zs =>
        simp only [cmpLexNat] at h₁ h₂ ⊢
        rcases hxy : cmpNat x y with _ | _ | _ <;> rw [hxy] at h₁ <;>
          rcases hyz : cmpNat y z with _ | _ | _ <;> rw [hyz] at h₂
        · rw [(cmpNat_lt_trans hxy hyz), lt_then]
        · rw [cmpNat_eq_iff] at hyz
          subst hyz
          rw [hxy, lt_then]
        · rw [gt_then] at h₂; cases h₂
        · rw [cmpNat_eq_iff] at hxy
          subst hxy
          rw [hyz, lt_then]
        · rw [cmpNat_eq_iff] at hxy
          rw [cmpNat_eq_iff] at hyz
          subst hxy; subst hyz
          rw [eq_then] at h₁ h₂
          rw [(cmpNat_eq_iff x x).mpr rfl, eq_then]
          exact ih h₁ h₂
        · rw [gt_then] at h₂; cases h₂
        · rw [gt_then] at h₁; cases h₁
        · rw [gt_then] at h₁; cases h₁
        · rw [gt_then] at h₁; cases h₁

/-- The non-strict preference relation induced by a three-way comparator:
`a` may come before `b` whenever the comparator does not say `a` is greater. -/
def cmpLE (cmp : α → α → Ordering) (a b : α) : Prop := cmp a b ≠ .gt

instance {cmp : α → α → Ordering} : DecidableRel (cmpLE cmp) := fun a b =>
  inferInstanceAs (Decidable (cmp a b ≠ .gt))

/-- A comparator that is a lexicographic `Nat`-list key comparison. -/
def IsKeyCmp (cmp : α → α → Ordering) : Prop :=
  ∃ key : α → List Nat, ∀ a b, cmp a b = cmpLexNat (key a) (key b)

theorem IsKeyCmp.le_total {cmp : α → α → Ordering} (h : IsKeyCmp cmp) (a b : α) :
    cmpLE cmp a b ∨ cmpLE cmp b a := by
  obtain ⟨key, hk⟩ := h
  unfold cmpLE
  rw [hk, hk, cmpLexNat_swap (key a) (key b)]
  rcases cmpLexNat (key a) (key b) <;> simp [Ordering.swap]

theorem IsKeyCmp.le_trans {cmp : α → α → Ordering} (h : IsKeyCmp cmp) {a b c : α}
    (h₁ : cmpLE cmp a b) (h₂ : cmpLE cmp b c) : cmpLE cmp a c := by
  obtain ⟨key, hk⟩ := h
  unfold cmpLE at *
  rw [hk] at h₁ h₂ ⊢
  rcases hab : cmpLexNat (key a) (key b) with _ | _ | _
  · rcases hbc : cmpLexNat (key b) (key c) with _ | _ | _
    · simp [cmpLexNat_lt_trans hab hbc]
    · rw [cmpLexNat_eq_iff] at hbc; rw [← hbc, hab]; simp
    · simp [hbc] at h₂
  · rw [cmpLexNat_eq_iff] at hab; rw [hab]; exact h₂
  · simp [hab] at h₁

/-- Sort a list with a three-way comparator, as JavaScript `Array#sort` does:
a stable sort placing `a` before `b` whenever `cmp a b ≤ 0`. -/
def sortByCmp (cmp : α → α → Ordering) [DecidableRel (cmpLE cmp)] (l : List α) : List α :=
  l.insertionSort (cmpLE cmp)

theorem sortByCmp_perm (cmp : α → α → Ordering) (l : List α) :
    (sortByCmp cmp l).Perm l :=
  List.perm_insertionSort _ l

theorem sortByCmp_mem (cmp : α → α → Ordering) (l : List α) (a : α) :
    a ∈ sortByCmp cmp l ↔ a ∈ l :=
  (sortByCmp_perm cmp l).mem_iff

theorem sortByCmp_sorted {cmp : α → α → Ordering} (h : IsKeyCmp cmp) (l : List α) :
    (sortByCmp cmp l).Sorted (cmpLE cmp) := by
  haveI : IsTotal α (cmpLE cmp) := ⟨h.le_total⟩
  haveI : IsTrans α (cmpLE cmp) := ⟨fun _ _ _ => h.le_trans⟩
  exact List.sorted_insertionSort _ l

theorem sortByCmp_eq_self {cmp : α → α → Ordering} {l : List α}
    (h : l.Sorted (cmpLE cmp)) : sortByCmp cmp l = l :=
  List.Sorted.insertionSort_eq h

theorem sortByCmp_idem {cmp : α → α → Ordering} (h : IsKeyCmp cmp) (l : List α) :
    sortByCmp cmp (sortByCmp cmp l) = sortByCmp cmp l :=
  sortByCmp_eq_self (sortByCmp_sorted h l)

/-! ## First-occurrence deduplication

MAME-style code repeatedly uses the JavaScript idiom
`list.filter((x, idx) => keys.indexOf(key(x)) === idx)`, which keeps, for every
key, exactly the first element bearing it.  It is modelled with an accumulator
of already-seen keys. -/

/-- Keep only the first element bearing each key; `seen` holds keys already
emitted earlier in the traversal. -/
def dedupByKeyAux (key : α → β) [DecidableEq β] (seen : List β) : List α → List α
  | [] => []
  | a :: as =>
    if key a ∈ seen then dedupByKeyAux key seen as
    else a :: dedupByKeyAux key (key a :: seen) as

/-- JavaScript `list.filter((x, idx) => keys.indexOf(key(x)) === idx)`:
first occurrence per key wins. -/
def dedupByKey (key : α → β) [DecidableEq β] (l : List α) : List α :=
  dedupByKeyAux key [] l

theorem dedupByKeyAux_sublist (key : α → β) [DecidableEq β] (seen : List β)
    (l : List α) : (dedupByKeyAux key seen l).Sublist l := by
  induction l generalizing seen with
  | nil => simp [dedupByKeyAux]
  | cons a as ih =>
    simp only [dedupByKeyAux]
    split
    · exact (ih seen).trans (List.sublist_cons_self a as)
    · exact (ih _).cons₂ a

theorem dedupByKey_sublist (key : α → β) [DecidableEq β] (l : List α) :
    (dedupByKey key l).Sublist l :=
  dedupByKeyAux_sublist key [] l

theorem dedupByKey_subset (key : α → β) [DecidableEq β] (l : List α) :
    ∀ a ∈ dedupByKey key l, a ∈ l :=
  fun _ h => (dedupByKey_sublist key l).mem h

theorem dedupByKeyAux_key_mem (key : α → β) [DecidableEq β] (seen : List β)
    (l : List α) : ∀ a ∈ dedupByKeyAux key seen l, key a ∉ seen := by
  induction l generalizing seen with
  | nil => simp [dedupByKeyAux]
  | cons x xs ih =>
    intro a ha
    simp only [dedupByKeyAux] at ha
    split at ha
    · exact ih seen a ha
    · rcases List.mem_cons.mp ha with rfl | h
      · assumption
      · have := ih _ a h
        simp only [List.mem_cons, not_or] at this
        exact this.2

theorem dedupByKeyAux_keys_nodup (key : α → β) [DecidableEq β] (seen : List β)
    (l : List α) : ((dedupByKeyAux key seen l).map key).Nodup := by
  induction l generalizing seen with
  | nil => simp [dedupByKeyAux]
  | cons x xs ih =>
    simp only [dedupByKeyAux]
    split
    · exact ih seen
    · simp only [List.map_cons, List.nodup_cons]
      constructor
      · intro hmem
        obtain ⟨a, ha, hk⟩ := List.mem_map.mp hmem
        have := dedupByKeyAux_key_mem key _ xs a ha
        simp [hk] at this
      · exact ih _

/-- After first-occurrence deduplication, all keys are distinct. -/
theorem dedupByKey_keys_nodup (key : α → β) [DecidableEq β] (l : List α) :
    ((dedupByKey key l).map key).Nodup :=
  dedupByKeyAux_keys_nodup key [] l

theorem dedupByKeyAux_eq_self (key : α → β) [DecidableEq β] (seen : List β)
    (l : List α) (hd : (l.map key).Nodup) (hs : ∀ a ∈ l, key a ∉ seen) :
    dedupByKeyAux key seen l = l := by
  induction l generalizing seen with
  | nil => simp [dedupByKeyAux]
  | cons x xs ih =>
    simp only [List.map_cons, List.nodup_cons] at hd
    have hx : key x ∉ seen := hs x (List.mem_cons_self x xs)
    simp only [dedupByKeyAux, if_neg hx]
    congr 1
    refine ih _ hd.2 ?_
    intro a ha
    simp only [List.mem_cons, not_or]
    refine ⟨?_, hs a (List.mem_cons_of_mem x ha)⟩
    intro hk
    exact hd.1 (hk ▸ List.mem_map_of_mem key ha)

/-- Deduplication is the identity on lists whose keys are already distinct. -/
theorem dedupByKey_eq_self (key : α → β) [DecidableEq β] {l : List α}
    (hd : (l.map key).Nodup) : dedupByKey key l = l :=
  dedupByKeyAux_eq_self key [] l hd (by simp)

theorem dedupByKeyAux_mem_of_key (key : α → β) [DecidableEq β] (seen : List β)
    (l : List α) (a : α) (ha : a ∈ l) (hk : key a ∉ seen) :
    ∃ b ∈ dedupByKeyAux key seen l, key b = key a := by
  induction l generalizing seen with
  | nil => cases ha
  | cons x xs ih =>
    simp only [dedupByKeyAux]
    rcases List.mem_cons.mp ha with rfl | hmem
    · rw [if_neg hk]
      exact ⟨a, List.mem_cons_self _ _, rfl⟩
    · by_cases hxa : key x = key a
      · rw [if_neg (hxa ▸ hk)]
        exact ⟨x, List.mem_cons_self _ _, hxa⟩
      · split
        · exact ih seen hmem hk
        · have hk' : key a ∉ key x :: seen := by
            simp only [List.mem_cons, not_or]
            exact ⟨fun h => hxa h.symm, hk⟩
          obtain ⟨b, hb, hkb⟩ := ih (key x :: seen) hmem hk'
          exact ⟨b, List.mem_cons_of_mem x hb, hkb⟩

/-- Every key present in the input is still represented after deduplication. -/
theorem dedupByKey_mem_of_key (key : α → β) [DecidableEq β] (l : List α) (a : α)
    (ha : a ∈ l) : ∃ b ∈ dedupByKey key l, key b = key a :=
  dedupByKeyAux_mem_of_key key [] l a ha (by simp)

theorem dedupByKeyAux_find_first (key : α → β) [DecidableEq β] (l : List α) :
    ∀ (seen : List β), ∀ a ∈ dedupByKeyAux key seen l,
      l.find? (fun x => key x = key a) = some a := by
  induction l with
  | nil => intro seen a ha; simp [dedupByKeyAux] at ha
  | cons x xs ih =>
    intro seen a ha
    simp only [dedupByKeyAux] at ha
    by_cases hx : key x ∈ seen
    · rw [if_pos hx] at ha
      have hne : key a ∉ seen := dedupByKeyAux_key_mem key seen xs a ha
      have hxa : ¬ key x = key a := fun h => hne (h ▸ hx)
      rw [List.find?_cons_of_neg, ih seen a ha]
      simp [hxa]
    · rw [if_neg hx] at ha
      rcases List.mem_cons.mp ha with rfl | hmem
      · rw [List.find?_cons_of_pos]
        simp
      · have hne : key a ∉ key x :: seen :=
          dedupByKeyAux_key_mem key (key x :: seen) xs a hmem
        have hxa : ¬ key x = key a := by
          intro h
          exact hne (h ▸ List.mem_cons_self _ _)
        rw [List.find?_cons_of_neg, ih (key x :: seen) a hmem]
        simp [hxa]

/-- The survivor of each key class under first-occurrence deduplication is the
FIRST input element carrying that key: a last-occurrence dedup would fail
this on any list with two distinct elements sharing a key. -/
theorem dedupByKey_find_first (key : α → β) [DecidableEq β] (l : List α) :
    ∀ a ∈ dedupByKey key l, l.find? (fun x => key x = key a) = some a :=
  dedupByKeyAux_find_first key l []

/-! ## Natural-numeric string comparison

Modelled from the spec: `String.prototype.localeCompare` with the
`numeric: true` collation option is an external runtime builtin, described by
the spec as "a natural-numeric comparator".  A string is tokenised into maximal digit
runs (compared by numeric value) and single other characters (compared by code
point), digit runs ordering before other characters; the token stream is
flattened into a `List Nat` key of `(tag, value)` pairs so that comparison is
`cmpLexNat` of the keys. -/

/-- Numeric value of a decimal digit character. -/
def digitVal (c : Char) : Nat := c.toNat - 48

/-- Flatten a character list into a natural-numeric sort key: a pending digit
run is accumulated in `acc` and emitted as `0, value`; any other character `c`
is emitted as `1, c.toNat`. -/
def natKeyAux : Option Nat → List Char → List Nat
  | none, [] => []
  | some n, [] => [0, n]
  | none, c :: cs =>
    if c.isDigit then natKeyAux (some (digitVal c)) cs
    else 1 :: c.toNat :: natKeyAux none cs
  | some n, c :: cs =>
    if c.isDigit then natKeyAux (some (n * 10 + digitVal c)) cs
    else 0 :: n :: 1 :: c.toNat :: natKeyAux none cs

/-- Natural-numeric sort key of a character list. -/
def natKey (l : List Char) : List Nat := natKeyAux none l

/-- Natural-numeric three-way comparison of character lists (the model of
`localeCompare` with numeric collation). -/
def natCompare (a b : List Char) : Ordering := cmpLexNat (natKey a) (natKey b)

/-! ## Data model

Translated from the DAT types consumed by `DATMergerSplitter` and
`FixdatCreator`.  A ROM's `merge` attribute is optional (TypeScript
`string | undefined`, read through `??`); its `bios` attribute and a game's
`parent`/`bios` links are read for truthiness, so the empty string stands for
"absent". -/

/-- One of the four recognized ROM merge modes (`MergeMode` in `options.ts`). -/
inductive MergeMode
  | NONE
  | SPLIT
  | MERGED
  | FULLNONMERGED
deriving DecidableEq, Repr

/-- A declared file within a game (`ROM` in `types/dats/rom.ts`). `fp` is the
opaque content fingerprint (checksum). -/
structure ROM where
  name : String := ""
  size : Nat := 0
  fp : String := ""
  merge : Option String := none
  bios : Bool := false
deriving DecidableEq, Repr

/-- Modelled from the spec: `ROM.hashCode()` is not under `src/`; per §3,
"ROM identity for deduplication is (name, size, fingerprint)", so the hash
code is an injective encoding of that triple. -/
def ROM.hashCode (r : ROM) : String :=
  r.name ++ "|" ++ toString r.size ++ "|" ++ r.fp

/-- A named set of ROMs (`Game` / `Machine` in `types/dats`).  `isMachine`
stands for the `instanceof Machine` test; `deviceRefs` is the machine's list
of referenced device game names. -/
structure Game where
  name : String := ""
  parent : String := ""
  bios : String := ""
  isMachine : Bool := false
  deviceRefs : List String := []
  roms : List ROM := []
deriving DecidableEq, Repr

/-- Modelled from the spec: `Game.isClone()` is not under `src/`; a game with
a nonempty clone link is a clone. -/
def Game.isClone (g : Game) : Bool := g.parent != ""

/-- Modelled from the spec: `Game.isParent()` is not under `src/`; "a game
whose `parent` is empty is a parent or standalone" (§3). -/
def Game.isParent (g : Game) : Bool := !g.isClone

/-- The DAT header fields the merger touches (`logiqx/header.ts`). -/
structure Header where
  name : String := ""
  romNamesContainDirectories : Bool := false
deriving DecidableEq, Repr

/-- A named catalog: a header plus an ordered list of games. -/
structure DAT where
  header : Header := {}
  games : List Game := []
deriving DecidableEq, Repr

/-- The option surface consumed by the embedded modules (`Options`). -/
structure Options where
  mergeRoms : Option MergeMode := none
  fixdat : Bool := false
  outputDirRoot : String := ""
deriving DecidableEq, Repr

/-! ## DATMergerSplitter -/

/-- JavaScript `name.replace('-', '__')` with a string pattern substitutes only
the first occurrence. -/
def replaceFirstDash : List Char → List Char
  | [] => []
  | c :: cs => if c = '-' then '_' :: '_' :: cs else c :: replaceFirstDash cs

/-- Realises `romNameFunc` of `DATMergerSplitter.mergeParent`: the ROM name with its
first hyphen replaced by two underscores ("Numeric sort will sort underscore
before hyphens? ASCII says don't do that"). -/
def romNameFunc (r : ROM) : List Char := replaceFirstDash r.name.data

/-- The sort key realising `romSortFunc` (natural-numeric comparison of
`romNameFunc` values). -/
def romSortKey (r : ROM) : List Nat := natKey (romNameFunc r)

/-- Realises `romSortFunc` of `DATMergerSplitter.mergeParent`:
`romNameFunc(a).localeCompare(romNameFunc(b), undefined, numeric)`. -/
def romSortFunc (a b : ROM) : Ordering := natCompare (romNameFunc a) (romNameFunc b)

theorem romSortFunc_isKeyCmp : IsKeyCmp romSortFunc :=
  ⟨romSortKey, fun _ _ => rfl⟩

/-- Sort a ROM list with `romSortFunc` (JS `Array#sort`, stable). -/
def sortRoms (l : List ROM) : List ROM := sortByCmp romSortFunc l

/-- Realises `gameNamesToGames.get(n)`: the map is built by successive `Map#set` over
the game list, so the last game bearing a name wins. -/
def lookupGame (games : List Game) (n : String) : Option Game :=
  games.reverse.find? (fun g => g.name = n)

/-- The per-game sanitization step of `mergeParent`: drop duplicate ROMs by
name (first occurrence wins), then sort with `romSortFunc`. -/
def sanitizeGame (g : Game) : Game :=
  { g with roms := sortRoms (dedupByKey ROM.name g.roms) }

/-- The FULLNONMERGED device step of `mergeParent`: machines prepend the ROMs
of every resolvable referenced device game, then re-sort. -/
def applyDevices (allGames : List Game) (g : Game) : Game :=
  if !g.isMachine then g
  else
    { g with
      roms := sortRoms
        ((g.deviceRefs.filterMap (lookupGame allGames)).flatMap Game.roms ++ g.roms) }

/-- The reference map of `DATMergerSplitter.diffGameRoms`: build `name → hashCode` from the parent
(`Map#set`, last wins); keep a child ROM when the parent has no entry for its
effective name `merge ?? name` (or a falsy one), or an entry with a different
hash code. -/
def Game.romNamesToHashCodes (g : Game) (n : String) : Option String :=
  (g.roms.reverse.find? (fun r => r.name = n)).map ROM.hashCode

/-- Realises `DATMergerSplitter.diffGameRoms` itself. -/
def diffGameRoms (parent child : Game) : List ROM :=
  child.roms.filter (fun r =>
    match parent.romNamesToHashCodes (r.merge.getD r.name) with
    | none => true
    | some h => h = "" || h != r.hashCode)

/-- The non-FULLNONMERGED BIOS step of `mergeParent`: a game with a resolvable
external BIOS subtracts the BIOS-flagged ROMs of that BIOS game, then
re-sorts. -/
def applyBios (allGames : List Game) (g : Game) : Game :=
  if g.bios = "" then g
  else
    match lookupGame allGames g.bios with
    | none => g
    | some biosGame =>
      { g with
        roms := sortRoms
          (diffGameRoms { biosGame with roms := biosGame.roms.filter ROM.bios } g) }

/-- The SPLIT/MERGED clone step of `mergeParent`: a clone with a resolvable
parent subtracts the parent's ROMs, then re-sorts. -/
def applyCloneDiff (allGames : List Game) (g : Game) : Game :=
  if g.parent = "" then g
  else
    match lookupGame allGames g.parent with
    | none => g
    | some parentGame =>
      { g with roms := sortRoms (diffGameRoms parentGame g) }

/-- The per-game processing pipeline of `mergeParent`: sanitize, then the
FULLNONMERGED device step, then the non-FULLNONMERGED BIOS step, then the
SPLIT/MERGED clone step. -/
def processGames (mode : MergeMode) (allGames : List Game) (cls : List Game) :
    List Game :=
  let games1 := cls.map sanitizeGame
  let games2 :=
    if mode = .FULLNONMERGED then games1.map (applyDevices allGames) else games1
  let games3 :=
    if mode ≠ .FULLNONMERGED then games2.map (applyBios allGames) else games2
  if mode = .SPLIT ∨ mode = .MERGED then games3.map (applyCloneDiff allGames)
  else games3

/-- The MERGED re-parenting of clone ROMs: each clone ROM's name is prefixed
with the clone's name and a backslash. -/
def cloneRomsOf (cloneGames : List Game) : List ROM :=
  cloneGames.flatMap (fun g =>
    g.roms.map (fun r => { r with name := g.name ++ "\\" ++ r.name }))

/-- Realises `DATMergerSplitter.mergeParent`: process one parent class and assemble the
result for the configured mode. -/
def mergeParent (mode : MergeMode) (allGames : List Game) (cls : List Game) :
    List Game :=
  let games4 := processGames mode allGames cls
  let parentGame := games4.find? (fun g => g.isParent)
  let cloneGames := games4.filter (fun g => g.isClone)
  if mode ≠ .MERGED then
    match parentGame with
    | some p => p :: cloneGames
    | none => cloneGames
  else
    let allRoms := cloneRomsOf cloneGames ++ (parentGame.map Game.roms).getD []
    let allRomsDeduplicated := dedupByKey ROM.hashCode allRoms
    [{ parentGame.getD {} with isMachine := true, roms := allRomsDeduplicated }]

/-- Modelled from the spec: `DAT.getParents()` is not under `src/`.  Per §3
each game belongs to the class of its resolvable clone link; a parent or
standalone game, or an orphan clone, heads its own class.  The key of a game
is the representative name of its class. -/
def classKey (games : List Game) (g : Game) : String :=
  if g.parent = "" then g.name
  else if games.any (fun p => p.name = g.parent) then g.parent
  else g.name

/-- First-occurrence deduplication of a string list (helper for `parents`). -/
def firstOccurrencesAux (seen : List String) : List String → List String
  | [] => []
  | k :: ks =>
    if k ∈ seen then firstOccurrencesAux seen ks
    else k :: firstOccurrencesAux (k :: seen) ks

/-- The distinct values of a string list, in order of first occurrence. -/
def firstOccurrences (l : List String) : List String := firstOccurrencesAux [] l

/-- Modelled from the spec: the parent classes of a DAT, in order of first
appearance, each class listing its games in DAT order. -/
def parents (dat : DAT) : List (List Game) :=
  (firstOccurrences (dat.games.map (classKey dat.games))).map
    (fun k => dat.games.filter (fun g => classKey dat.games g = k))

/-- Modelled from the spec: `DAT.hasParentCloneInfo()` is not under `src/`;
a DAT carries parent/clone metadata when some game is a clone. -/
def hasParentCloneInfo (dat : DAT) : Bool := dat.games.any Game.isClone

/-- Realises `DATMergerSplitter.merge`: returns the input DAT unchanged when no merge
mode is configured or the DAT lacks parent/clone info; otherwise processes
every parent class and assembles a new DAT whose header records whether ROM
names now contain directories. -/
def merge (opts : Options) (dat : DAT) : DAT :=
  match opts.mergeRoms with
  | none => dat
  | some mode =>
    if !hasParentCloneInfo dat then dat
    else
      let newGames := (parents dat).flatMap (mergeParent mode dat.games)
      { header := { dat.header with romNamesContainDirectories := mode = .MERGED }
        games := newGames }

/-! ## FileIndexer

Candidate files are handles with memoised fingerprints; archive entries carry
their archive kind.  `path.resolve` (Node stdlib) is external: paths are taken
to be already absolute, and `startsWith` realises the containment tests.  The
final `localeCompare` tiebreaker is modelled as code-point lexicographic
comparison ("Lexicographic path", §4.1). -/

/-- The archive kinds with a fixed preference order (`FileFactory#archiveFrom`);
`other` is any unrecognised `Archive` subclass. -/
inductive ArchiveKind
  | zip
  | tar
  | rar
  | sevenZip
  | other
deriving DecidableEq, Repr

/-- A candidate file handle (`File` / `ArchiveEntry` in `types/files`).
`archive = none` models a plain `File`; `some kind` models an `ArchiveEntry`
of that archive kind.  `hasHeader` is the truthiness of `getFileHeader()`. -/
structure CandidateFile where
  filePath : String := ""
  archive : Option ArchiveKind := none
  hasHeader : Bool := false
  hashCodeWithHeader : String := ""
  hashCodeWithoutHeader : String := ""
deriving DecidableEq, Repr

/-- Realises `FileIndexer.archiveEntryPriority`: non-archive 0, Zip 1, Tar 2, Rar 3,
SevenZip 4, anything else 99. -/
def archiveEntryPriority (f : CandidateFile) : Nat :=
  match f.archive with
  | none => 0
  | some .zip => 1
  | some .tar => 2
  | some .rar => 3
  | some .sevenZip => 4
  | some .other => 99

/-- Step 1 of the indexer comparator: 1 when the file has a header and the
bucket key is its without-header hash code, else 0 (raw form preferred). -/
def headeredValue (key : String) (f : CandidateFile) : Nat :=
  if f.hasHeader ∧ f.hashCodeWithoutHeader = key then 1 else 0

/-- Step 3 of the indexer comparator: 1 when the file path lies within the
output directory, else 0 (not-in-output preferred). -/
def inOutputValue (outputDir : String) (f : CandidateFile) : Nat :=
  if f.filePath.startsWith outputDir then 1 else 0

/-- Step 4 of the indexer comparator: when the output directory is on a known
storage volume, 0 when the file is on that volume, else 1; skipped (both 0)
when the volume is unknown. -/
def inOutputDiskValue (outputDirDisk : Option String) (f : CandidateFile) : Nat :=
  match outputDirDisk with
  | none => 0
  | some disk => if f.filePath.startsWith disk then 0 else 1

/-- Code-point lexicographic string comparison (the model of the
`localeCompare` path tiebreaker). -/
def strCompare (a b : String) : Ordering :=
  cmpLexNat (a.data.map Char.toNat) (b.data.map Char.toNat)

/-- The five-step file preference comparator of `FileIndexer.index`. -/
def fileCompare (key outputDir : String) (outputDirDisk : Option String)
    (f1 f2 : CandidateFile) : Ordering :=
  (cmpNat (headeredValue key f1) (headeredValue key f2)).then
    ((cmpNat (archiveEntryPriority f1) (archiveEntryPriority f2)).then
      ((cmpNat (inOutputValue outputDir f1) (inOutputValue outputDir f2)).then
        ((cmpNat (inOutputDiskValue outputDirDisk f1)
            (inOutputDiskValue outputDirDisk f2)).then
          (strCompare f1.filePath f2.filePath))))

/-- The composite sort key whose lexicographic comparison equals
`fileCompare`. -/
def fileSortKey (key outputDir : String) (outputDirDisk : Option String)
    (f : CandidateFile) : List Nat :=
  headeredValue key f :: archiveEntryPriority f :: inOutputValue outputDir f ::
    inOutputDiskValue outputDirDisk f :: f.filePath.data.map Char.toNat

theorem fileCompare_eq_key (key outputDir : String) (outputDirDisk : Option String)
    (f1 f2 : CandidateFile) :
    fileCompare key outputDir outputDirDisk f1 f2 =
      cmpLexNat (fileSortKey key outputDir outputDirDisk f1)
        (fileSortKey key outputDir outputDirDisk f2) := rfl

theorem fileCompare_isKeyCmp (key outputDir : String)
    (outputDirDisk : Option String) :
    IsKeyCmp (fileCompare key outputDir outputDirDisk) :=
  ⟨fileSortKey key outputDir outputDirDisk, fun _ _ => rfl⟩

/-- Realises `FileIndexer.setFileInMap`: append the file to the bucket of `key`,
creating the bucket at the end of the map when absent (JS `Map` preserves
insertion order). -/
def setFileInMap (m : List (String × List CandidateFile)) (key : String)
    (f : CandidateFile) : List (String × List CandidateFile) :=
  if m.any (fun e => e.1 = key) then
    m.map (fun e => if e.1 = key then (e.1, e.2 ++ [f]) else e)
  else m ++ [(key, [f])]

/-- The insertion phase of `FileIndexer.index`: each file is indexed under its
with-header hash code and, when it has a detected header, additionally under
its without-header hash code. -/
def indexInsert (files : List CandidateFile) :
    List (String × List CandidateFile) :=
  files.foldl
    (fun m file =>
      let m1 := setFileInMap m file.hashCodeWithHeader file
      if file.hasHeader then setFileInMap m1 file.hashCodeWithoutHeader file
      else m1)
    []

/-- Realises `FileIndexer.index`: empty input yields an empty map; otherwise insert all
files and sort every bucket by the five-step preference comparator. -/
def indexFiles (opts : Options) (disks : List String)
    (files : List CandidateFile) : List (String × List CandidateFile) :=
  if files = [] then []
  else
    let outputDir := opts.outputDirRoot
    let outputDirDisk := disks.find? (fun mount => outputDir.startsWith mount)
    (indexInsert files).map
      (fun e => (e.1, sortByCmp (fileCompare e.1 outputDir outputDirDisk) e.2))

/-- Bucket of a hash code in an indexed map (`Map#get`, `[]` when absent). -/
def bucket (m : List (String × List CandidateFile)) (key : String) :
    List CandidateFile :=
  ((m.find? (fun e => e.1 = key)).map Prod.snd).getD []

/-! ## FixdatCreator

Two revisions of the module exist in the repository.  The newer one
(`modules/fixdatCreator.ts`, `create`) collects the written ROM hash codes in
a `Set`; the older one (`write`) collects them in a `Map<string, boolean>`.
Header construction, timestamping and the filesystem write are out of scope;
the embedding returns the residual game list, `none` standing for the
`undefined` "no fixdat" result. -/

/-- A ROM together with its matched input file (`ROMWithFiles`); only the ROM
side is consulted by the fixdat generator. -/
structure ROMWithFiles where
  rom : ROM := {}
  inputFile : String := ""
deriving DecidableEq, Repr

/-- A release candidate: one game release with its ROM/file bindings. -/
structure ReleaseCandidate where
  romsWithFiles : List ROMWithFiles := []
deriving DecidableEq, Repr

/-- The values of the `Parent → ReleaseCandidate[]` map, flattened
(`[...parentsToCandidates.values()].flat()` in the newer revision). -/
def candidateValues (parentsToCandidates : List (String × List ReleaseCandidate)) :
    List ReleaseCandidate :=
  (parentsToCandidates.map Prod.snd).flatten

/-- The newer revision's `writtenRomHashCodes`: the `Set` of hash codes of
every ROM having a release candidate (membership in the underlying list). -/
def writtenRomHashCodes (parentsToCandidates : List (String × List ReleaseCandidate)) :
    List String :=
  ((candidateValues parentsToCandidates).flatMap ReleaseCandidate.romsWithFiles).map
    (fun rwf => rwf.rom.hashCode)

/-- The newer revision's `gamesWithMissingRoms`: games of the original DAT not
all of whose ROM hash codes were written. -/
def gamesWithMissingRoms (originalDat : DAT)
    (parentsToCandidates : List (String × List ReleaseCandidate)) : List Game :=
  originalDat.games.filter (fun game =>
    !game.roms.all (fun rom =>
      (writtenRomHashCodes parentsToCandidates).contains rom.hashCode))

/-- Realises `FixdatCreator.create` (newer revision): `undefined` unless the fixdat
option is set; `undefined` when every game was found; otherwise the residual
game list the fixdat is built from. -/
def fixdatCreate (opts : Options) (originalDat : DAT)
    (parentsToCandidates : List (String × List ReleaseCandidate)) :
    Option (List Game) :=
  if !opts.fixdat then none
  else
    let missing := gamesWithMissingRoms originalDat parentsToCandidates
    if missing.length = 0 then none else some missing

/-- A key/value insertion with `Map#set` semantics: overwrite in place when
the key exists, append otherwise. -/
def mapSet (m : List (String × Bool)) (key : String) (v : Bool) :
    List (String × Bool) :=
  if m.any (fun e => e.1 = key) then
    m.map (fun e => if e.1 = key then (e.1, v) else e)
  else m ++ [(key, v)]

/-- The older revision's `writtenRomHashCodes`: a `Map<string, boolean>` built
by `reduce`, binding every written ROM hash code to `true`
(`[...parentsToCandidates.values()].flatMap(rcs => rcs)` flattens the same
value lists). -/
def writtenRomHashCodesOld (parentsToCandidates : List (String × List ReleaseCandidate)) :
    List (String × Bool) :=
  ((((parentsToCandidates.map Prod.snd).flatMap id).flatMap
      ReleaseCandidate.romsWithFiles).map (fun rwf => rwf.rom)).foldl
    (fun m rom => mapSet m rom.hashCode true) []

/-- Realises `Map#has` on the association-list model. -/
def mapHas (m : List (String × Bool)) (key : String) : Bool :=
  m.any (fun e => e.1 = key)

/-- The older revision's `gamesWithMissingRoms` (from `FixdatCreator.write`). -/
def gamesWithMissingRomsOld (originalDat : DAT)
    (parentsToCandidates : List (String × List ReleaseCandidate)) : List Game :=
  originalDat.games.filter (fun game =>
    !game.roms.all (fun rom =>
      mapHas (writtenRomHashCodesOld parentsToCandidates) rom.hashCode))

/-! ## Path sanitizer -/

/-- The illegal path characters of §4.4: double-quote, asterisk, colon,
less-than, greater-than, question mark, pipe. -/
def illegalPathChars : List Char := ['"', '*', ':', '<', '>', '?', '|']

/-- Replace an illegal character by underscore, leaving the rest alone. -/
def legalizeChar (c : Char) : Char := if c ∈ illegalPathChars then '_' else c

/-- On a backslash-separator platform: colons become semicolons, the other
illegal characters become underscores. -/
def legalizeCharWin (c : Char) : Char :=
  if c = ':' then ';' else if c ∈ illegalPathChars then '_' else c

/-- Modelled from the spec: `fsPoly.makeLegal` is not under `src/` (only its
tests are).  Per §4.4 every illegal character is replaced by underscore,
except that with separator `\` the first colon of a leading drive-letter
context is preserved and the remaining colons become `;`. -/
def makeLegal (pathLike : String) (pathSep : String) : String :=
  if pathSep = "\\" then
    match pathLike.data with
    | c :: ':' :: rest =>
      if c.isAlpha then String.mk (c :: ':' :: rest.map legalizeCharWin)
      else String.mk (pathLike.data.map legalizeCharWin)
    | _ => String.mk (pathLike.data.map legalizeCharWin)
  else String.mk (pathLike.data.map legalizeChar)

/-! ## Structural lemmas about the merger

The transforms only ever rewrite a game's ROM list; its identifying fields
survive every stage.  `parents` partitions the game list, every non-MERGED
class reassembles to a permutation of its processed games, and the processed
ROM lists are sorted, duplicate-free sublists.  These facts drive the
conservation (C3) and idempotence (C8) claims. -/

/-- Two games share every field except possibly the ROM list. -/
def SameIdentity (g g' : Game) : Prop :=
  g'.name = g.name ∧ g'.parent = g.parent ∧ g'.bios = g.bios ∧
    g'.isMachine = g.isMachine ∧ g'.deviceRefs = g.deviceRefs

theorem SameIdentity.refl (g : Game) : SameIdentity g g :=
  ⟨rfl, rfl, rfl, rfl, rfl⟩

theorem sanitizeGame_identity (g : Game) : SameIdentity g (sanitizeGame g) :=
  ⟨rfl, rfl, rfl, rfl, rfl⟩

theorem applyDevices_identity (all : List Game) (g : Game) :
    SameIdentity g (applyDevices all g) := by
  unfold applyDevices
  split
  · exact SameIdentity.refl g
  · exact ⟨rfl, rfl, rfl, rfl, rfl⟩

theorem applyBios_identity (all : List Game) (g : Game) :
    SameIdentity g (applyBios all g) := by
  unfold applyBios
  split
  · exact SameIdentity.refl g
  · cases lookupGame all g.bios with
    | none => exact SameIdentity.refl g
    | some bg => exact ⟨rfl, rfl, rfl, rfl, rfl⟩

theorem applyCloneDiff_identity (all : List Game) (g : Game) :
    SameIdentity g (applyCloneDiff all g) := by
  unfold applyCloneDiff
  split
  · exact SameIdentity.refl g
  · cases lookupGame all g.parent with
    | none => exact SameIdentity.refl g
    | some pg => exact ⟨rfl, rfl, rfl, rfl, rfl⟩

theorem SameIdentity.trans {g1 g2 g3 : Game} (h12 : SameIdentity g1 g2)
    (h23 : SameIdentity g2 g3) : SameIdentity g1 g3 :=
  ⟨h23.1.trans h12.1, h23.2.1.trans h12.2.1, h23.2.2.1.trans h12.2.2.1,
   h23.2.2.2.1.trans h12.2.2.2.1, h23.2.2.2.2.trans h12.2.2.2.2⟩

/-- The per-game composite of the `mergeParent` pipeline stages. -/
def procGame (mode : MergeMode) (allGames : List Game) (g : Game) : Game :=
  let g1 := sanitizeGame g
  let g2 := if mode = .FULLNONMERGED then applyDevices allGames g1 else g1
  let g3 := if mode ≠ .FULLNONMERGED then applyBios allGames g2 else g2
  if mode = .SPLIT ∨ mode = .MERGED then applyCloneDiff allGames g3 else g3

theorem processGames_eq_map (mode : MergeMode) (allGames : List Game)
    (cls : List Game) :
    processGames mode allGames cls = cls.map (procGame mode allGames) := by
  unfold processGames procGame
  cases mode <;> simp [List.map_map, Function.comp_def]

theorem procGame_identity (mode : MergeMode) (allGames : List Game) (g : Game) :
    SameIdentity g (procGame mode allGames g) := by
  have h1 := sanitizeGame_identity g
  cases mode with
  | NONE => exact h1.trans (applyBios_identity allGames _)
  | SPLIT =>
    exact ((h1.trans (applyBios_identity allGames _)).trans
      (applyCloneDiff_identity allGames _))
  | MERGED =>
    exact ((h1.trans (applyBios_identity allGames _)).trans
      (applyCloneDiff_identity allGames _))
  | FULLNONMERGED => exact h1.trans (applyDevices_identity allGames _)

/-! ### The parent classes partition the game list -/

theorem firstOccurrencesAux_mem (seen : List String) (l : List String)
    (k : String) :
    k ∈ firstOccurrencesAux seen l ↔ k ∈ l ∧ k ∉ seen := by
  induction l generalizing seen with
  | nil => simp [firstOccurrencesAux]
  | cons x xs ih =>
    simp only [firstOccurrencesAux]
    split
    · rename_i hx
      rw [ih]
      simp only [List.mem_cons]
      constructor
      · rintro ⟨hk, hns⟩
        exact ⟨Or.inr hk, hns⟩
      · rintro ⟨hk | hk, hns⟩
        · subst hk
          exact absurd hx hns
        · exact ⟨hk, hns⟩
    · rename_i hx
      simp only [List.mem_cons, ih]
      constructor
      · rintro (rfl | ⟨hk, hns⟩)
        · exact ⟨Or.inl rfl, hx⟩
        · simp only [List.mem_cons, not_or] at hns
          exact ⟨Or.inr hk, hns.2⟩
      · rintro ⟨rfl | hk, hns⟩
        · exact Or.inl rfl
        · by_cases hxx : k = x
          · exact Or.inl hxx
          · refine Or.inr ⟨hk, ?_⟩
            simp only [List.mem_cons, not_or]
            exact ⟨hxx, hns⟩

theorem firstOccurrences_mem (l : List String) (k : String) :
    k ∈ firstOccurrences l ↔ k ∈ l := by
  unfold firstOccurrences
  rw [firstOccurrencesAux_mem]
  simp

theorem firstOccurrencesAux_nodup (seen : List String) (l : List String) :
    (firstOccurrencesAux seen l).Nodup := by
  induction l generalizing seen with
  | nil => simp [firstOccurrencesAux]
  | cons x xs ih =>
    simp only [firstOccurrencesAux]
    split
    · exact ih seen
    · rw [List.nodup_cons]
      refine ⟨?_, ih _⟩
      rw [firstOccurrencesAux_mem]
      rintro ⟨-, hns⟩
      exact hns (List.mem_cons_self _ _)

theorem firstOccurrences_nodup (l : List String) :
    (firstOccurrences l).Nodup :=
  firstOccurrencesAux_nodup [] l

theorem count_flatten_classes {α : Type} [DecidableEq α] (κ : α → String)
    (l : List α) (keys : List String) (hnd : keys.Nodup) (a : α)
    (hcov : a ∈ l → κ a ∈ keys) :
    ((keys.map (fun k => l.filter (fun g => κ g = k))).flatten).count a =
      l.count a := by
  induction keys with
  | nil =>
    simp only [List.map_nil, List.flatten_nil, List.count_nil]
    by_cases hal : a ∈ l
    · exact absurd (hcov hal) (List.not_mem_nil _)
    · rw [Eq.comm, List.count_eq_zero]
      exact hal
  | cons k ks ih =>
    simp only [List.map_cons, List.flatten_cons, List.count_append]
    rw [List.nodup_cons] at hnd
    by_cases hk : κ a = k
    · have h1 : (l.filter (fun g => κ g = k)).count a = l.count a :=
        List.count_filter (by simp [hk])
      have h2 : ((ks.map (fun k => l.filter (fun g => κ g = k))).flatten).count a
          = 0 := by
        rw [List.count_eq_zero]
        intro hmem
        rw [List.mem_flatten] at hmem
        obtain ⟨bl, hbl, habl⟩ := hmem
        obtain ⟨k', hk', rfl⟩ := List.mem_map.mp hbl
        have hk'' : κ a = k' := by
          simpa using (List.mem_filter.mp habl).2
        exact hnd.1 (by rw [← hk, hk'']; exact hk')
      rw [h1, h2]
      omega
    · have h1 : (l.filter (fun g => κ g = k)).count a = 0 := by
        rw [List.count_eq_zero]
        intro hmem
        exact hk (by simpa using (List.mem_filter.mp hmem).2)
      have hcov' : a ∈ l → κ a ∈ ks := by
        intro hal
        rcases List.mem_cons.mp (hcov hal) with h | h
        · exact absurd h hk
        · exact h
      rw [h1, ih hnd.2 hcov']
      omega

/-- The parent classes of a DAT partition its game list (up to order). -/
theorem games_perm_flatten_parents (dat : DAT) :
    dat.games.Perm ((parents dat).flatten) := by
  rw [List.perm_iff_count]
  intro g
  unfold parents
  rw [count_flatten_classes (classKey dat.games) dat.games _
    (firstOccurrences_nodup _) g
    (fun hg => (firstOccurrences_mem _ _).mpr (List.mem_map_of_mem _ hg))]

/-! ### Per-class assembly is a permutation of the processed class -/

theorem Game.isParent_iff (g : Game) : g.isParent = true ↔ g.parent = "" := by
  simp [Game.isParent, Game.isClone]

theorem Game.isClone_iff (g : Game) : g.isClone = true ↔ g.parent ≠ "" := by
  simp [Game.isClone]

theorem Game.not_isParent_iff (g : Game) : g.isParent = false ↔ g.parent ≠ "" := by
  simp [Game.isParent, Game.isClone]

theorem SameIdentity.isParent_eq {g g' : Game} (h : SameIdentity g g') :
    g'.isParent = g.isParent := by
  unfold Game.isParent Game.isClone
  rw [h.2.1]

theorem SameIdentity.isClone_eq {g g' : Game} (h : SameIdentity g g') :
    g'.isClone = g.isClone := by
  unfold Game.isClone
  rw [h.2.1]

theorem nodup_all_eq_singleton {α : Type} {l : List α} (hnd : l.Nodup) (p : α)
    (hp : p ∈ l) (hall : ∀ x ∈ l, x = p) : l = [p] := by
  cases l with
  | nil => cases hp
  | cons x xs =>
    have hx : x = p := hall x (List.mem_cons_self _ _)
    subst hx
    cases xs with
    | nil => rfl
    | cons y ys =>
      have hy : y = x := hall y (by simp)
      rw [List.nodup_cons] at hnd
      exact absurd (hy ▸ List.mem_cons_self y ys) hnd.1

theorem flatMap_perm_congr {α β : Type} {f g : α → List β} (l : List α)
    (h : ∀ x ∈ l, (f x).Perm (g x)) : (l.flatMap f).Perm (l.flatMap g) := by
  induction l with
  | nil => exact List.Perm.refl _
  | cons a as ih =>
    simp only [List.flatMap_cons]
    exact (h a (List.mem_cons_self _ _)).append
      (ih (fun x hx => h x (List.mem_cons_of_mem a hx)))

/-- For any mode other than MERGED, one class's assembled output is a
permutation of its processed games, provided the class holds at most one
parent-or-standalone game. -/
theorem mergeParent_perm_processed (mode : MergeMode) (hm : mode ≠ .MERGED)
    (allGames : List Game) (cls : List Game)
    (hnd : (processGames mode allGames cls).Nodup)
    (hone : ∀ g1 ∈ processGames mode allGames cls,
      ∀ g2 ∈ processGames mode allGames cls,
      g1.isParent = true → g2.isParent = true → g1 = g2) :
    (mergeParent mode allGames cls).Perm (processGames mode allGames cls) := by
  unfold mergeParent
  rw [if_pos hm]
  cases hf : (processGames mode allGames cls).find? (fun g => g.isParent) with
  | none =>
    rw [List.find?_eq_none] at hf
    have hself : (processGames mode allGames cls).filter (fun g => g.isClone) =
        processGames mode allGames cls := by
      rw [List.filter_eq_self]
      intro g hg
      have := hf g hg
      rw [Bool.not_eq_true, Game.not_isParent_iff] at this
      exact (Game.isClone_iff g).mpr this
    rw [hself]
  | some p =>
    have hp := List.find?_some hf
    have hpm := List.mem_of_find?_eq_some hf
    have hpar : (processGames mode allGames cls).filter (fun g => g.isParent) =
        [p] := by
      refine nodup_all_eq_singleton (hnd.filter _) p ?_ ?_
      · exact List.mem_filter.mpr ⟨hpm, hp⟩
      · intro x hx
        have hxm := List.mem_filter.mp hx
        exact hone x hxm.1 p hpm hxm.2 hp
    have hcl : (processGames mode allGames cls).filter (fun g => !g.isParent) =
        (processGames mode allGames cls).filter (fun g => g.isClone) := by
      apply List.filter_congr
      intro g _
      unfold Game.isParent
      rw [Bool.not_not]
    have hperm := List.filter_append_perm (fun g => g.isParent)
      (processGames mode allGames cls)
    rw [hpar, hcl] at hperm
    exact hperm

/-! ### Processed ROM lists: sorted, name-distinct sublists -/

theorem sanitizeGame_roms_sub (g : Game) :
    ∀ r ∈ (sanitizeGame g).roms, r ∈ g.roms := by
  intro r hr
  have hroms : (sanitizeGame g).roms =
      sortByCmp romSortFunc (dedupByKey ROM.name g.roms) := rfl
  rw [hroms, sortByCmp_mem] at hr
  exact dedupByKey_subset ROM.name g.roms r hr

theorem sanitizeGame_roms_names_nodup (g : Game) :
    ((sanitizeGame g).roms.map ROM.name).Nodup := by
  have hperm := (sortByCmp_perm romSortFunc
    (dedupByKey ROM.name g.roms)).map ROM.name
  exact hperm.nodup_iff.mpr (dedupByKey_keys_nodup ROM.name g.roms)

theorem sanitizeGame_roms_sorted (g : Game) :
    (sanitizeGame g).roms.Sorted (cmpLE romSortFunc) :=
  sortByCmp_sorted romSortFunc_isKeyCmp _

theorem applyBios_roms_sub (all : List Game) (g : Game) :
    ∀ r ∈ (applyBios all g).roms, r ∈ g.roms := by
  intro r hr
  unfold applyBios at hr
  split at hr
  · exact hr
  · cases hl : lookupGame all g.bios with
    | none =>
      rw [hl] at hr
      exact hr
    | some bg =>
      rw [hl] at hr
      have hroms : ({ g with roms := sortRoms (diffGameRoms
          { bg with roms := bg.roms.filter ROM.bios } g) } : Game).roms =
          sortByCmp romSortFunc (diffGameRoms
            { bg with roms := bg.roms.filter ROM.bios } g) := rfl
      rw [hroms, sortByCmp_mem] at hr
      exact (List.mem_filter.mp hr).1

theorem applyBios_roms_names_nodup (all : List Game) (g : Game)
    (hnd : (g.roms.map ROM.name).Nodup) :
    ((applyBios all g).roms.map ROM.name).Nodup := by
  unfold applyBios
  split
  · exact hnd
  · cases hl : lookupGame all g.bios with
    | none => exact hnd
    | some bg =>
      have hperm := (sortByCmp_perm romSortFunc (diffGameRoms
        { bg with roms := bg.roms.filter ROM.bios } g)).map ROM.name
      refine hperm.nodup_iff.mpr ?_
      have hsub : (diffGameRoms { bg with roms := bg.roms.filter ROM.bios }
          g).Sublist g.roms := List.filter_sublist _
      exact List.Nodup.sublist (hsub.map ROM.name) hnd

theorem applyBios_roms_sorted (all : List Game) (g : Game)
    (hs : g.roms.Sorted (cmpLE romSortFunc)) :
    (applyBios all g).roms.Sorted (cmpLE romSortFunc) := by
  unfold applyBios
  split
  · exact hs
  · cases lookupGame all g.bios with
    | none => exact hs
    | some bg => exact sortByCmp_sorted romSortFunc_isKeyCmp _

theorem applyCloneDiff_roms_sub (all : List Game) (g : Game) :
    ∀ r ∈ (applyCloneDiff all g).roms, r ∈ g.roms := by
  intro r hr
  unfold applyCloneDiff at hr
  split at hr
  · exact hr
  · cases hl : lookupGame all g.parent with
    | none =>
      rw [hl] at hr
      exact hr
    | some pg =>
      rw [hl] at hr
      have hroms : ({ g with roms := sortRoms (diffGameRoms pg g) } : Game).roms =
          sortByCmp romSortFunc (diffGameRoms pg g) := rfl
      rw [hroms, sortByCmp_mem] at hr
      exact (List.mem_filter.mp hr).1

theorem applyCloneDiff_roms_names_nodup (all : List Game) (g : Game)
    (hnd : (g.roms.map ROM.name).Nodup) :
    ((applyCloneDiff all g).roms.map ROM.name).Nodup := by
  unfold applyCloneDiff
  split
  · exact hnd
  · cases hl : lookupGame all g.parent with
    | none => exact hnd
    | some pg =>
      have hperm := (sortByCmp_perm romSortFunc (diffGameRoms pg g)).map ROM.name
      refine hperm.nodup_iff.mpr ?_
      have hsub : (diffGameRoms pg g).Sublist g.roms := List.filter_sublist _
      exact List.Nodup.sublist (hsub.map ROM.name) hnd

theorem applyCloneDiff_roms_sorted (all : List Game) (g : Game)
    (hs : g.roms.Sorted (cmpLE romSortFunc)) :
    (applyCloneDiff all g).roms.Sorted (cmpLE romSortFunc) := by
  unfold applyCloneDiff
  split
  · exact hs
  · cases lookupGame all g.parent with
    | none => exact hs
    | some pg => exact sortByCmp_sorted romSortFunc_isKeyCmp _

/-- For the non-FULLNONMERGED modes, the processed ROM list of a game is a
subset of the original, has pairwise-distinct names, and is sorted. -/
theorem procGame_roms_invariant (mode : MergeMode) (allGames : List Game)
    (g : Game) (hmode : mode ≠ .FULLNONMERGED) :
    (∀ r ∈ (procGame mode allGames g).roms, r ∈ g.roms) ∧
    (((procGame mode allGames g).roms.map ROM.name).Nodup) ∧
    ((procGame mode allGames g).roms.Sorted (cmpLE romSortFunc)) := by
  cases mode with
  | FULLNONMERGED => exact absurd rfl hmode
  | NONE =>
    have hpg : procGame .NONE allGames g = applyBios allGames (sanitizeGame g) :=
      rfl
    rw [hpg]
    refine ⟨?_, ?_, ?_⟩
    · intro r hr
      exact sanitizeGame_roms_sub g r
        (applyBios_roms_sub allGames (sanitizeGame g) r hr)
    · exact applyBios_roms_names_nodup allGames _ (sanitizeGame_roms_names_nodup g)
    · exact applyBios_roms_sorted allGames _ (sanitizeGame_roms_sorted g)
  | SPLIT =>
    have hpg : procGame .SPLIT allGames g =
        applyCloneDiff allGames (applyBios allGames (sanitizeGame g)) := rfl
    rw [hpg]
    refine ⟨?_, ?_, ?_⟩
    · intro r hr
      exact sanitizeGame_roms_sub g r
        (applyBios_roms_sub allGames (sanitizeGame g) r
          (applyCloneDiff_roms_sub allGames _ r hr))
    · exact applyCloneDiff_roms_names_nodup allGames _
        (applyBios_roms_names_nodup allGames _ (sanitizeGame_roms_names_nodup g))
    · exact applyCloneDiff_roms_sorted allGames _
        (applyBios_roms_sorted allGames _ (sanitizeGame_roms_sorted g))
  | MERGED =>
    have hpg : procGame .MERGED allGames g =
        applyCloneDiff allGames (applyBios allGames (sanitizeGame g)) := rfl
    rw [hpg]
    refine ⟨?_, ?_, ?_⟩
    · intro r hr
      exact sanitizeGame_roms_sub g r
        (applyBios_roms_sub allGames (sanitizeGame g) r
          (applyCloneDiff_roms_sub allGames _ r hr))
    · exact applyCloneDiff_roms_names_nodup allGames _
        (applyBios_roms_names_nodup allGames _ (sanitizeGame_roms_names_nodup g))
    · exact applyCloneDiff_roms_sorted allGames _
        (applyBios_roms_sorted allGames _ (sanitizeGame_roms_sorted g))

/-! ### The merged game list is a permutation of the processed games
(non-MERGED modes) -/

theorem parents_mem_shape (dat : DAT) (cls : List Game) (hcls : cls ∈ parents dat) :
    ∃ k, k ∈ firstOccurrences (dat.games.map (classKey dat.games)) ∧
      cls = dat.games.filter (fun g => classKey dat.games g = k) := by
  unfold parents at hcls
  obtain ⟨k, hk, rfl⟩ := List.mem_map.mp hcls
  exact ⟨k, hk, rfl⟩

theorem classKey_of_parent (games : List Game) (g : Game)
    (hp : g.isParent = true) : classKey games g = g.name := by
  rw [Game.isParent_iff] at hp
  unfold classKey
  rw [if_pos hp]

theorem processGames_names (mode : MergeMode) (allGames : List Game)
    (cls : List Game) :
    (processGames mode allGames cls).map Game.name = cls.map Game.name := by
  rw [processGames_eq_map, List.map_map]
  exact List.map_congr_left (fun g _ => (procGame_identity mode allGames g).1)

/-- In a class drawn from a DAT with pairwise-distinct game names, the
processed games are pairwise distinct and at most one of them is a
parent-or-standalone game. -/
theorem processGames_class_facts (mode : MergeMode) (dat : DAT)
    (hnames : (dat.games.map Game.name).Nodup) (cls : List Game)
    (hcls : cls ∈ parents dat) :
    (processGames mode dat.games cls).Nodup ∧
    (∀ g1 ∈ processGames mode dat.games cls,
      ∀ g2 ∈ processGames mode dat.games cls,
      g1.isParent = true → g2.isParent = true → g1 = g2) := by
  obtain ⟨k, -, rfl⟩ := parents_mem_shape dat cls hcls
  have hsub : (dat.games.filter
      (fun g => classKey dat.games g = k)).Sublist dat.games :=
    List.filter_sublist _
  have hclsnames : ((dat.games.filter
      (fun g => classKey dat.games g = k)).map Game.name).Nodup :=
    List.Nodup.sublist (hsub.map Game.name) hnames
  have hprocnames : ((processGames mode dat.games
      (dat.games.filter (fun g => classKey dat.games g = k))).map
        Game.name).Nodup := by
    rw [processGames_names]
    exact hclsnames
  refine ⟨List.Nodup.of_map Game.name hprocnames, ?_⟩
  intro g1 hg1 g2 hg2 hp1 hp2
  rw [processGames_eq_map] at hg1 hg2
  obtain ⟨c1, hc1, rfl⟩ := List.mem_map.mp hg1
  obtain ⟨c2, hc2, rfl⟩ := List.mem_map.mp hg2
  have hid1 := procGame_identity mode dat.games c1
  have hid2 := procGame_identity mode dat.games c2
  have hp1' : c1.isParent = true := by rw [← hid1.isParent_eq]; exact hp1
  have hp2' : c2.isParent = true := by rw [← hid2.isParent_eq]; exact hp2
  have hk1 : c1.name = k := by
    have := (List.mem_filter.mp hc1).2
    rw [← classKey_of_parent dat.games c1 hp1']
    simpa using this
  have hk2 : c2.name = k := by
    have := (List.mem_filter.mp hc2).2
    rw [← classKey_of_parent dat.games c2 hp2']
    simpa using this
  have hc12 : c1 = c2 :=
    List.inj_on_of_nodup_map hnames ((List.mem_filter.mp hc1).1)
      ((List.mem_filter.mp hc2).1) (hk1.trans hk2.symm)
  rw [hc12]

/-- For the non-MERGED modes, the merged game list is a permutation of the
per-game processed originals. -/
theorem merge_games_perm (opts : Options) (dat : DAT) (mode : MergeMode)
    (hm : opts.mergeRoms = some mode) (hmode : mode ≠ .MERGED)
    (hi : hasParentCloneInfo dat = true)
    (hnames : (dat.games.map Game.name).Nodup) :
    (merge opts dat).games.Perm (dat.games.map (procGame mode dat.games)) := by
  have hgames : (merge opts dat).games =
      (parents dat).flatMap (mergeParent mode dat.games) := by
    unfold merge
    rw [hm]
    simp only [hi, Bool.not_true, Bool.false_eq_true, if_false]
  rw [hgames]
  have h1 : ((parents dat).flatMap (mergeParent mode dat.games)).Perm
      ((parents dat).flatMap (processGames mode dat.games)) := by
    apply flatMap_perm_congr
    intro cls hcls
    obtain ⟨hnd, hone⟩ := processGames_class_facts mode dat hnames cls hcls
    exact mergeParent_perm_processed mode hmode dat.games cls hnd hone
  have h2 : (parents dat).flatMap (processGames mode dat.games) =
      ((parents dat).flatten).map (procGame mode dat.games) := by
    rw [List.flatMap_def, List.map_flatten]
    congr 1
    exact List.map_congr_left (fun cls _ => processGames_eq_map mode dat.games cls)
  rw [h2] at h1
  exact h1.trans ((games_perm_flatten_parents dat).symm.map _)

/-- Under NONE, a game with distinct ROM names and no resolvable BIOS link
keeps its ROM multiset (only the order changes). -/
theorem procGame_none_roms_perm (all : List Game) (g : Game)
    (hnd : (g.roms.map ROM.name).Nodup)
    (hb : g.bios = "" ∨ lookupGame all g.bios = none) :
    (procGame .NONE all g).roms.Perm g.roms := by
  have hpg : procGame .NONE all g = applyBios all (sanitizeGame g) := rfl
  have hsan : (sanitizeGame g).roms.Perm g.roms := by
    have hroms : (sanitizeGame g).roms =
        sortByCmp romSortFunc (dedupByKey ROM.name g.roms) := rfl
    rw [hroms, dedupByKey_eq_self ROM.name hnd]
    exact sortByCmp_perm _ _
  have hbios : applyBios all (sanitizeGame g) = sanitizeGame g := by
    unfold applyBios
    by_cases hb0 : (sanitizeGame g).bios = ""
    · rw [if_pos hb0]
    · rw [if_neg hb0]
      have hlook : lookupGame all (sanitizeGame g).bios = none := by
        rcases hb with hb | hb
        · exact absurd hb hb0
        · exact hb
      rw [hlook]
  rw [hpg, hbios]
  exact hsan

/-! ### Lookup characterisation and the second-pass identity lemmas -/

theorem mem_of_lookupGame {l : List Game} {n : String} {g : Game}
    (h : lookupGame l n = some g) : g ∈ l ∧ g.name = n := by
  unfold lookupGame at h
  exact ⟨List.mem_reverse.mp (List.mem_of_find?_eq_some h),
    by simpa using List.find?_some h⟩

theorem lookupGame_eq_some_iff (l : List Game)
    (hnd : (l.map Game.name).Nodup) (n : String) (g : Game) :
    lookupGame l n = some g ↔ g ∈ l ∧ g.name = n := by
  constructor
  · exact mem_of_lookupGame
  · rintro ⟨hg, hn⟩
    unfold lookupGame
    cases hf : l.reverse.find? (fun g' => g'.name = n) with
    | none =>
      rw [List.find?_eq_none] at hf
      have := hf g (List.mem_reverse.mpr hg)
      simp [hn] at this
    | some g' =>
      have hm' := List.mem_reverse.mp (List.mem_of_find?_eq_some hf)
      have hp' : g'.name = n := by simpa using List.find?_some hf
      rw [List.inj_on_of_nodup_map hnd hm' hg (hp'.trans hn.symm)]

theorem lookupGame_eq_none_iff (l : List Game) (n : String) :
    lookupGame l n = none ↔ ∀ g ∈ l, g.name ≠ n := by
  unfold lookupGame
  rw [List.find?_eq_none]
  constructor
  · intro h g hg
    have := h g (List.mem_reverse.mpr hg)
    simpa using this
  · intro h g hg
    have := h g (List.mem_reverse.mp hg)
    simpa using this

/-- Looking a name up in a permuted, per-game transformed game list finds the
transformed version of the original lookup result. -/
theorem lookupGame_of_perm_map (l₁ l₂ : List Game) (f : Game → Game)
    (hperm : l₁.Perm (l₂.map f)) (hf : ∀ g, (f g).name = g.name)
    (hnd : (l₂.map Game.name).Nodup) (n : String) :
    lookupGame l₁ n = (lookupGame l₂ n).map f := by
  have hnd1 : (l₁.map Game.name).Nodup := by
    refine (hperm.map Game.name).nodup_iff.mpr ?_
    rw [List.map_map]
    rw [show (Game.name ∘ f) = Game.name from funext hf]
    exact hnd
  cases hl2 : lookupGame l₂ n with
  | some g =>
    have hg := (lookupGame_eq_some_iff l₂ hnd n g).mp hl2
    refine (lookupGame_eq_some_iff l₁ hnd1 n (f g)).mpr
      ⟨hperm.mem_iff.mpr (List.mem_map_of_mem f hg.1), (hf g).trans hg.2⟩
  | none =>
    cases hl1 : lookupGame l₁ n with
    | none => rfl
    | some g1 =>
      have hg1 := (lookupGame_eq_some_iff l₁ hnd1 n g1).mp hl1
      obtain ⟨g, hg, rfl⟩ := List.mem_map.mp (hperm.mem_iff.mp hg1.1)
      rw [lookupGame_eq_none_iff] at hl2
      exact absurd ((hf g).symm.trans hg1.2) (hl2 g hg)

theorem romNamesToHashCodes_some (B : Game) {e h : String}
    (hsome : B.romNamesToHashCodes e = some h) :
    ∃ b ∈ B.roms, b.name = e ∧ h = b.hashCode := by
  unfold Game.romNamesToHashCodes at hsome
  rw [Option.map_eq_some'] at hsome
  obtain ⟨b, hb, hh⟩ := hsome
  exact ⟨b, List.mem_reverse.mp (List.mem_of_find?_eq_some hb),
    by simpa using List.find?_some hb, hh.symm⟩

theorem romNamesToHashCodes_of_mem (B : Game)
    (hnd : (B.roms.map ROM.name).Nodup) {b : ROM} (hb : b ∈ B.roms) :
    B.romNamesToHashCodes b.name = some b.hashCode := by
  unfold Game.romNamesToHashCodes
  cases hf : B.roms.reverse.find? (fun r => r.name = b.name) with
  | none =>
    rw [List.find?_eq_none] at hf
    have := hf b (List.mem_reverse.mpr hb)
    simp at this
  | some b' =>
    have hm' := List.mem_reverse.mp (List.mem_of_find?_eq_some hf)
    have hp' : b'.name = b.name := by simpa using List.find?_some hf
    rw [List.inj_on_of_nodup_map hnd hm' hb hp']
    rfl

/-- Map entries built from a ROM subset of a name-distinct reference agree
with the reference's entries. -/
theorem romNamesToHashCodes_agree (B B' : Game)
    (hnd : (B.roms.map ROM.name).Nodup)
    (hsub : ∀ r ∈ B'.roms, r ∈ B.roms) {e h : String}
    (hsome : B'.romNamesToHashCodes e = some h) :
    B.romNamesToHashCodes e = some h := by
  obtain ⟨b', hb', hbn, rfl⟩ := romNamesToHashCodes_some B' hsome
  rw [← hbn]
  exact romNamesToHashCodes_of_mem B hnd (hsub b' hb')

/-- A ROM diff keeps everything when every subject ROM already passed the diff
against a reference whose entries subsume the new reference's entries. -/
theorem diffGameRoms_eq_self (B B' S' : Game)
    (hagree : ∀ e h, B'.romNamesToHashCodes e = some h →
      B.romNamesToHashCodes e = some h)
    (hkept : ∀ r ∈ S'.roms,
      (match B.romNamesToHashCodes (r.merge.getD r.name) with
        | none => true
        | some h => h = "" || h != r.hashCode) = true) :
    diffGameRoms B' S' = S'.roms := by
  unfold diffGameRoms
  rw [List.filter_eq_self]
  intro r hr
  cases h' : B'.romNamesToHashCodes (r.merge.getD r.name) with
  | none => rfl
  | some h =>
    have hB := hagree _ _ h'
    have hk := hkept r hr
    rw [hB] at hk
    exact hk

theorem kept_of_mem_diff (B S₀ : Game) (r : ROM) (hr : r ∈ diffGameRoms B S₀) :
    (match B.romNamesToHashCodes (r.merge.getD r.name) with
      | none => true
      | some h => h = "" || h != r.hashCode) = true :=
  (List.mem_filter.mp hr).2

/-- Sanitization is the identity on a game whose ROM list already has distinct
names and is sorted. -/
theorem sanitizeGame_eq_self (g' : Game)
    (hnd : (g'.roms.map ROM.name).Nodup)
    (hs : g'.roms.Sorted (cmpLE romSortFunc)) : sanitizeGame g' = g' := by
  unfold sanitizeGame
  rw [dedupByKey_eq_self ROM.name hnd,
    show sortRoms g'.roms = g'.roms from sortByCmp_eq_self hs]

/-! ### Reconstructing the classes of the merged DAT

After a non-MERGED merge, the game list is a concatenation of blocks, one per
original parent class, and all games of a block share one class key; the
classes of the merged DAT are therefore exactly those blocks. -/

theorem firstOccurrencesAux_append_seen (seen : List String) (l₁ l₂ : List String)
    (h : ∀ x ∈ l₁, x ∈ seen) :
    firstOccurrencesAux seen (l₁ ++ l₂) = firstOccurrencesAux seen l₂ := by
  induction l₁ with
  | nil => rfl
  | cons x xs ih =>
    rw [List.cons_append]
    simp only [firstOccurrencesAux]
    rw [if_pos (h x (List.mem_cons_self _ _))]
    exact ih (fun y hy => h y (List.mem_cons_of_mem x hy))

/-- The distinct keys of a concatenation of nonempty constant-key blocks with
pairwise-distinct keys are the block keys in order. -/
theorem firstOccurrencesAux_blocks {α : Type} (κ : α → String)
    (ps : List (String × List α)) (seen : List String)
    (hconst : ∀ p ∈ ps, ∀ x ∈ p.2, κ x = p.1)
    (hne : ∀ p ∈ ps, p.2 ≠ [])
    (hnd : (ps.map Prod.fst).Nodup)
    (hdis : ∀ p ∈ ps, p.1 ∉ seen) :
    firstOccurrencesAux seen (((ps.map Prod.snd).flatten).map κ) =
      ps.map Prod.fst := by
  induction ps generalizing seen with
  | nil => rfl
  | cons p ps ih =>
    obtain ⟨b, bs, hb⟩ : ∃ b bs, p.2 = b :: bs := by
      cases hp2 : p.2 with
      | nil => exact absurd hp2 (hne p (List.mem_cons_self _ _))
      | cons b bs => exact ⟨b, bs, rfl⟩
    have hbk : κ b = p.1 := hconst p (List.mem_cons_self _ _)
      b (hb ▸ List.mem_cons_self _ _)
    simp only [List.map_cons, List.flatten_cons, List.map_append, hb]
    rw [List.cons_append]
    simp only [firstOccurrencesAux]
    rw [if_neg (hbk ▸ hdis p (List.mem_cons_self _ _))]
    have hbs : ∀ x ∈ bs.map κ, x ∈ κ b :: seen := by
      intro x hx
      obtain ⟨y, hy, rfl⟩ := List.mem_map.mp hx
      have : κ y = p.1 := hconst p (List.mem_cons_self _ _)
        y (hb ▸ List.mem_cons_of_mem b hy)
      rw [this, ← hbk]
      exact List.mem_cons_self _ _
    rw [firstOccurrencesAux_append_seen _ _ _ hbs]
    rw [List.map_cons, List.nodup_cons] at hnd
    have hih := ih (κ b :: seen)
      (fun q hq => hconst q (List.mem_cons_of_mem p hq))
      (fun q hq => hne q (List.mem_cons_of_mem p hq)) hnd.2
      (fun q hq => by
        simp only [List.mem_cons, not_or]
        refine ⟨?_, hdis q (List.mem_cons_of_mem p hq)⟩
        rw [hbk]
        intro hqk
        exact hnd.1 (hqk ▸ List.mem_map_of_mem Prod.fst hq)
        )
    rw [hih, hbk]

/-- Filtering a concatenation of constant-key blocks by one of the keys
returns that key's block. -/
theorem filter_flatten_blocks {α : Type} (κ : α → String)
    (ps : List (String × List α))
    (hconst : ∀ p ∈ ps, ∀ x ∈ p.2, κ x = p.1)
    (hnd : (ps.map Prod.fst).Nodup) (k : String) (bl : List α)
    (hmem : (k, bl) ∈ ps) :
    ((ps.map Prod.snd).flatten).filter (fun x => κ x = k) = bl := by
  induction ps with
  | nil => cases hmem
  | cons p ps ih =>
    simp only [List.map_cons, List.flatten_cons, List.filter_append]
    rw [List.map_cons, List.nodup_cons] at hnd
    rcases List.mem_cons.mp hmem with heq | hmem'
    · have hpk : p.1 = k := by rw [← heq]
      have hpbl : p.2 = bl := by rw [← heq]
      have h1 : p.2.filter (fun x => κ x = k) = p.2 := by
        rw [List.filter_eq_self]
        intro a ha
        simp [hconst p (List.mem_cons_self _ _) a ha, hpk]
      have h2 : ((ps.map Prod.snd).flatten).filter (fun x => κ x = k) = [] := by
        rw [List.filter_eq_nil_iff]
        intro a ha
        rw [List.mem_flatten] at ha
        obtain ⟨bl', hbl', habl'⟩ := ha
        obtain ⟨q, hq, rfl⟩ := List.mem_map.mp hbl'
        have : κ a = q.1 := hconst q (List.mem_cons_of_mem p hq) a habl'
        rw [this]
        simp only [decide_eq_true_eq]
        intro hq1
        rw [← hpk] at hq1
        exact hnd.1 (hq1 ▸ List.mem_map_of_mem Prod.fst hq)
      rw [h1, h2, List.append_nil, hpbl]
    · have h1 : p.2.filter (fun x => κ x = k) = [] := by
        rw [List.filter_eq_nil_iff]
        intro a ha
        have hk : κ a = p.1 := hconst p (List.mem_cons_self _ _) a ha
        rw [hk]
        simp only [decide_eq_true_eq]
        intro hp1
        exact hnd.1 (by
          rw [hp1]
          exact List.mem_map.mpr ⟨(k, bl), hmem', rfl⟩)
      rw [h1, List.nil_append]
      exact ih (fun q hq => hconst q (List.mem_cons_of_mem p hq)) hnd.2 hmem'

/-- Second pass of the BIOS step: on an already-diffed, sorted game it is the
identity, because the re-merged DAT's BIOS game only narrows the reference
map. -/
theorem applyBios_pass2 (dat : DAT) (games₁ : List Game) (f : Game → Game)
    (hbridge : ∀ n, lookupGame games₁ n = (lookupGame dat.games n).map f)
    (hfsub : ∀ B ∈ dat.games, ∀ r ∈ (f B).roms, r ∈ B.roms)
    (hroms : ∀ B ∈ dat.games, (B.roms.map ROM.name).Nodup)
    (g' : Game) (hsorted : g'.roms.Sorted (cmpLE romSortFunc))
    (hkept : g'.bios ≠ "" → ∀ B, lookupGame dat.games g'.bios = some B →
      ∀ r ∈ g'.roms,
      (match ({ B with roms := B.roms.filter ROM.bios } : Game).romNamesToHashCodes
          (r.merge.getD r.name) with
        | none => true
        | some h => h = "" || h != r.hashCode) = true) :
    applyBios games₁ g' = g' := by
  unfold applyBios
  by_cases hb0 : g'.bios = ""
  · rw [if_pos hb0]
  · rw [if_neg hb0, hbridge g'.bios]
    cases hlB : lookupGame dat.games g'.bios with
    | none => rfl
    | some B =>
      show { g' with roms := sortRoms (diffGameRoms
        { f B with roms := (f B).roms.filter ROM.bios } g') } = g'
      have hdiff : diffGameRoms
          { f B with roms := (f B).roms.filter ROM.bios } g' = g'.roms := by
        apply diffGameRoms_eq_self { B with roms := B.roms.filter ROM.bios }
        · intro e h hsome
          refine romNamesToHashCodes_agree _ _ ?_ ?_ hsome
          · exact List.Nodup.sublist ((List.filter_sublist _).map ROM.name)
              (hroms B (mem_of_lookupGame hlB).1)
          · intro r hr
            have hr1 := List.mem_filter.mp hr
            exact List.mem_filter.mpr
              ⟨hfsub B (mem_of_lookupGame hlB).1 r hr1.1, hr1.2⟩
        · exact hkept hb0 B hlB
      rw [hdiff, show sortRoms g'.roms = g'.roms from sortByCmp_eq_self hsorted]

/-- Second pass of the SPLIT/MERGED clone step: on an already-diffed, sorted
game it is the identity. -/
theorem applyCloneDiff_pass2 (dat : DAT) (games₁ : List Game) (f : Game → Game)
    (hbridge : ∀ n, lookupGame games₁ n = (lookupGame dat.games n).map f)
    (hfsub : ∀ P ∈ dat.games, ∀ r ∈ (f P).roms, r ∈ P.roms)
    (hroms : ∀ P ∈ dat.games, (P.roms.map ROM.name).Nodup)
    (g' : Game) (hsorted : g'.roms.Sorted (cmpLE romSortFunc))
    (hkept : g'.parent ≠ "" → ∀ P, lookupGame dat.games g'.parent = some P →
      ∀ r ∈ g'.roms,
      (match P.romNamesToHashCodes (r.merge.getD r.name) with
        | none => true
        | some h => h = "" || h != r.hashCode) = true) :
    applyCloneDiff games₁ g' = g' := by
  unfold applyCloneDiff
  by_cases hp0 : g'.parent = ""
  · rw [if_pos hp0]
  · rw [if_neg hp0, hbridge g'.parent]
    cases hlP : lookupGame dat.games g'.parent with
    | none => rfl
    | some P =>
      show { g' with roms := sortRoms (diffGameRoms (f P) g') } = g'
      have hdiff : diffGameRoms (f P) g' = g'.roms := by
        apply diffGameRoms_eq_self P
        · intro e h hsome
          exact romNamesToHashCodes_agree P (f P)
            (hroms P (mem_of_lookupGame hlP).1)
            (hfsub P (mem_of_lookupGame hlP).1) hsome
        · exact hkept hp0 P hlP
      rw [hdiff, show sortRoms g'.roms = g'.roms from sortByCmp_eq_self hsorted]

/-- Under NONE, processing a processed game a second time changes nothing. -/
theorem procGame_pass2_id_none (dat : DAT) (games₁ : List Game)
    (hbridge : ∀ n, lookupGame games₁ n =
      (lookupGame dat.games n).map (procGame .NONE dat.games))
    (hroms : ∀ B ∈ dat.games, (B.roms.map ROM.name).Nodup)
    (g : Game) :
    procGame .NONE games₁ (procGame .NONE dat.games g) =
      procGame .NONE dat.games g := by
  have hinv := procGame_roms_invariant .NONE dat.games g (by decide)
  have hsan : sanitizeGame (procGame .NONE dat.games g) =
      procGame .NONE dat.games g :=
    sanitizeGame_eq_self _ hinv.2.1 hinv.2.2
  have hpg2 : procGame .NONE games₁ (procGame .NONE dat.games g) =
      applyBios games₁ (sanitizeGame (procGame .NONE dat.games g)) := rfl
  rw [hpg2, hsan]
  apply applyBios_pass2 dat games₁ (procGame .NONE dat.games) hbridge
    (fun B _ => (procGame_roms_invariant .NONE dat.games B (by decide)).1)
    hroms _ hinv.2.2
  intro hbne B hlB r hr
  have hbid : (procGame .NONE dat.games g).bios = g.bios :=
    (procGame_identity .NONE dat.games g).2.2.1
  rw [hbid] at hlB hbne
  have hbne' : (sanitizeGame g).bios ≠ "" := hbne
  have hlB' : lookupGame dat.games (sanitizeGame g).bios = some B := hlB
  have h2 : applyBios dat.games (sanitizeGame g) =
      { sanitizeGame g with roms := sortRoms (diffGameRoms
          { B with roms := B.roms.filter ROM.bios } (sanitizeGame g)) } := by
    unfold applyBios
    rw [if_neg hbne', hlB']
  have hroms1 : (procGame .NONE dat.games g).roms =
      sortRoms (diffGameRoms { B with roms := B.roms.filter ROM.bios }
        (sanitizeGame g)) := by
    show (applyBios dat.games (sanitizeGame g)).roms = _
    rw [h2]
  rw [hroms1] at hr
  exact kept_of_mem_diff _ _ r ((sortByCmp_mem _ _ _).mp hr)

/-- Under SPLIT, processing a processed game a second time changes nothing. -/
theorem procGame_pass2_id_split (dat : DAT) (games₁ : List Game)
    (hbridge : ∀ n, lookupGame games₁ n =
      (lookupGame dat.games n).map (procGame .SPLIT dat.games))
    (hroms : ∀ B ∈ dat.games, (B.roms.map ROM.name).Nodup)
    (g : Game) :
    procGame .SPLIT games₁ (procGame .SPLIT dat.games g) =
      procGame .SPLIT dat.games g := by
  have hinv := procGame_roms_invariant .SPLIT dat.games g (by decide)
  have hsan : sanitizeGame (procGame .SPLIT dat.games g) =
      procGame .SPLIT dat.games g :=
    sanitizeGame_eq_self _ hinv.2.1 hinv.2.2
  have hpg2 : procGame .SPLIT games₁ (procGame .SPLIT dat.games g) =
      applyCloneDiff games₁ (applyBios games₁
        (sanitizeGame (procGame .SPLIT dat.games g))) := rfl
  have hbios2 : applyBios games₁ (procGame .SPLIT dat.games g) =
      procGame .SPLIT dat.games g := by
    apply applyBios_pass2 dat games₁ (procGame .SPLIT dat.games) hbridge
      (fun B _ => (procGame_roms_invariant .SPLIT dat.games B (by decide)).1)
      hroms _ hinv.2.2
    intro hbne B hlB r hr
    have hbid : (procGame .SPLIT dat.games g).bios = g.bios :=
      (procGame_identity .SPLIT dat.games g).2.2.1
    rw [hbid] at hlB hbne
    have hbne' : (sanitizeGame g).bios ≠ "" := hbne
    have hlB' : lookupGame dat.games (sanitizeGame g).bios = some B := hlB
    have h2 : applyBios dat.games (sanitizeGame g) =
        { sanitizeGame g with roms := sortRoms (diffGameRoms
            { B with roms := B.roms.filter ROM.bios } (sanitizeGame g)) } := by
      unfold applyBios
      rw [if_neg hbne', hlB']
    have hsub1 : r ∈ (applyBios dat.games (sanitizeGame g)).roms := by
      have : (procGame .SPLIT dat.games g).roms =
          (applyCloneDiff dat.games
            (applyBios dat.games (sanitizeGame g))).roms := rfl
      rw [this] at hr
      exact applyCloneDiff_roms_sub dat.games _ r hr
    rw [h2] at hsub1
    exact kept_of_mem_diff _ _ r ((sortByCmp_mem _ _ _).mp hsub1)
  rw [hpg2, hsan, hbios2]
  apply applyCloneDiff_pass2 dat games₁ (procGame .SPLIT dat.games) hbridge
    (fun P _ => (procGame_roms_invariant .SPLIT dat.games P (by decide)).1)
    hroms _ hinv.2.2
  intro hpne P hlP r hr
  have hpid : (procGame .SPLIT dat.games g).parent = g.parent :=
    (procGame_identity .SPLIT dat.games g).2.1
  rw [hpid] at hlP hpne
  have hpne' : (applyBios dat.games (sanitizeGame g)).parent ≠ "" := by
    rw [(applyBios_identity dat.games (sanitizeGame g)).2.1]
    exact hpne
  have hlP' : lookupGame dat.games
      (applyBios dat.games (sanitizeGame g)).parent = some P := by
    rw [(applyBios_identity dat.games (sanitizeGame g)).2.1]
    exact hlP
  have h3 : applyCloneDiff dat.games (applyBios dat.games (sanitizeGame g)) =
      { applyBios dat.games (sanitizeGame g) with
        roms := sortRoms (diffGameRoms P
          (applyBios dat.games (sanitizeGame g))) } := by
    unfold applyCloneDiff
    rw [if_neg hpne', hlP']
  have hroms1 : (procGame .SPLIT dat.games g).roms =
      sortRoms (diffGameRoms P (applyBios dat.games (sanitizeGame g))) := by
    show (applyCloneDiff dat.games (applyBios dat.games (sanitizeGame g))).roms = _
    rw [h3]
  rw [hroms1] at hr
  exact kept_of_mem_diff _ _ r ((sortByCmp_mem _ _ _).mp hr)

theorem any_isClone_perm (l₁ l₂ : List Game) (f : Game → Game)
    (hperm : l₁.Perm (l₂.map f)) (hf : ∀ g, (f g).parent = g.parent) :
    l₁.any Game.isClone = l₂.any Game.isClone := by
  rw [Bool.eq_iff_iff, List.any_eq_true, List.any_eq_true]
  constructor
  · rintro ⟨g, hg, hc⟩
    obtain ⟨g0, hg0, rfl⟩ := List.mem_map.mp (hperm.mem_iff.mp hg)
    refine ⟨g0, hg0, ?_⟩
    unfold Game.isClone at hc ⊢
    rw [← hf g0]
    exact hc
  · rintro ⟨g, hg, hc⟩
    refine ⟨f g, hperm.mem_iff.mpr (List.mem_map_of_mem f hg), ?_⟩
    unfold Game.isClone
    rw [hf g]
    exact hc

theorem any_name_eq_of_perm_map (l₁ l₂ : List Game) (f : Game → Game)
    (hperm : l₁.Perm (l₂.map f)) (hf : ∀ g, (f g).name = g.name) (p : String) :
    l₁.any (fun x => x.name = p) = l₂.any (fun x => x.name = p) := by
  rw [Bool.eq_iff_iff, List.any_eq_true, List.any_eq_true]
  constructor
  · rintro ⟨g, hg, hc⟩
    obtain ⟨g0, hg0, rfl⟩ := List.mem_map.mp (hperm.mem_iff.mp hg)
    refine ⟨g0, hg0, ?_⟩
    rw [← hf g0]
    exact hc
  · rintro ⟨g, hg, hc⟩
    refine ⟨f g, hperm.mem_iff.mpr (List.mem_map_of_mem f hg), ?_⟩
    rw [hf g]
    exact hc

/-- The class key of a transformed game over the transformed game list equals
the original game's class key over the original list. -/
theorem classKey_bridge (l₁ l₂ : List Game) (f : Game → Game)
    (hperm : l₁.Perm (l₂.map f)) (hf : ∀ g, (f g).name = g.name)
    {g g' : Game} (hid : SameIdentity g g') :
    classKey l₁ g' = classKey l₂ g := by
  unfold classKey
  rw [hid.1, hid.2.1, any_name_eq_of_perm_map l₁ l₂ f hperm hf g.parent]

theorem mergeParent_mem_processed (mode : MergeMode) (hmode : mode ≠ .MERGED)
    (all cls : List Game) (g' : Game) (hg' : g' ∈ mergeParent mode all cls) :
    g' ∈ processGames mode all cls := by
  unfold mergeParent at hg'
  rw [if_pos hmode] at hg'
  cases hf : (processGames mode all cls).find? (fun g => g.isParent) with
  | some p =>
    rw [hf] at hg'
    rcases List.mem_cons.mp hg' with rfl | h
    · exact List.mem_of_find?_eq_some hf
    · exact (List.mem_filter.mp h).1
  | none =>
    rw [hf] at hg'
    exact (List.mem_filter.mp hg').1

/-- The single machine a MERGED parent class collapses to (the MERGED branch
of `mergeParent`). -/
def mergedGame (allGames : List Game) (cls : List Game) : Game :=
  let g4 := processGames .MERGED allGames cls
  let parentGame := g4.find? (fun g => g.isParent)
  { parentGame.getD {} with
    isMachine := true
    roms := dedupByKey ROM.hashCode
      (cloneRomsOf (g4.filter (fun g => g.isClone)) ++
        ((parentGame.map Game.roms).getD [])) }

theorem mergeParent_merged (allGames : List Game) (cls : List Game) :
    mergeParent .MERGED allGames cls = [mergedGame allGames cls] := rfl

theorem flatMap_eq_map_of_singleton {f : α → List β} {g : α → β}
    (h : ∀ x, f x = [g x]) (l : List α) : l.flatMap f = l.map g := by
  induction l with
  | nil => rfl
  | cons a as ih => simp only [List.flatMap_cons, List.map_cons, h a, ih,
      List.singleton_append]

theorem isClone_false_of_isParent {g : Game} (hp : g.isParent = true) :
    g.isClone = false := by
  unfold Game.isParent at hp
  cases hc : g.isClone with
  | false => rfl
  | true => rw [hc] at hp; cases hp

/-- The collapsed machine of a MERGED class is never a clone. -/
theorem mergedGame_parent (all cls : List Game) :
    (mergedGame all cls).parent = "" := by
  cases hf : (processGames .MERGED all cls).find? (fun g => g.isParent) with
  | none =>
    simp only [mergedGame, hf]
    rfl
  | some p =>
    have hp : p.isParent = true := List.find?_some hf
    simp only [mergedGame, hf, Option.getD_some]
    exact (Game.isParent_iff p).mp hp

/-- The computed form of a non-trivial merge. -/
theorem merge_eq_mk (opts : Options) (dat : DAT) (mode : MergeMode)
    (hm : opts.mergeRoms = some mode) (hi : hasParentCloneInfo dat = true) :
    merge opts dat =
      { header := { dat.header with romNamesContainDirectories := mode = .MERGED }
        games := (parents dat).flatMap (mergeParent mode dat.games) } := by
  unfold merge
  rw [hm]
  simp only [hi, Bool.not_true, Bool.false_eq_true, if_false]

/-- A second merge over an already-assembled non-MERGED class reproduces it,
given that reprocessing each of its games is the identity. -/
theorem mergeParent_pass2_id (mode : MergeMode) (hmode : mode ≠ .MERGED)
    (games₁ allGames cls : List Game)
    (hpass2 : ∀ g' ∈ mergeParent mode allGames cls,
      procGame mode games₁ g' = g') :
    mergeParent mode games₁ (mergeParent mode allGames cls) =
      mergeParent mode allGames cls := by
  have hproc2 : processGames mode games₁ (mergeParent mode allGames cls) =
      mergeParent mode allGames cls := by
    rw [processGames_eq_map]
    rw [List.map_congr_left hpass2]
    exact List.map_id _
  conv_lhs => rw [mergeParent]
  rw [if_pos hmode, hproc2]
  unfold mergeParent
  rw [if_pos hmode]
  cases hf : (processGames mode allGames cls).find? (fun g => g.isParent) with
  | some p =>
    dsimp only
    have hp : p.isParent = true := List.find?_some hf
    have hclones : ∀ x ∈ (processGames mode allGames cls).filter
        (fun g => g.isClone), x.isClone = true :=
      fun x hx => (List.mem_filter.mp hx).2
    rw [List.find?_cons_of_pos _ hp]
    have hfc : List.filter (fun g => g.isClone)
        (p :: (processGames mode allGames cls).filter (fun g => g.isClone)) =
        (processGames mode allGames cls).filter (fun g => g.isClone) := by
      rw [List.filter_cons_of_neg]
      · rw [List.filter_eq_self]
        exact hclones
      · simp [isClone_false_of_isParent hp]
    rw [hfc]
  | none =>
    dsimp only
    have hclones : ∀ x ∈ (processGames mode allGames cls).filter
        (fun g => g.isClone), x.isClone = true :=
      fun x hx => (List.mem_filter.mp hx).2
    have hnop : ((processGames mode allGames cls).filter
        (fun g => g.isClone)).find? (fun g => g.isParent) = none := by
      rw [List.find?_eq_none]
      intro x hx
      have := hclones x hx
      unfold Game.isParent
      rw [this]
      simp
    rw [hnop]
    rw [List.filter_eq_self.mpr hclones]

/-- The two early returns of `DATMergerSplitter.merge` (shared helper). -/
theorem merge_eq_self_of_trivial (opts : Options) (dat : DAT)
    (h : opts.mergeRoms = none ∨ hasParentCloneInfo dat = false) :
    merge opts dat = dat := by
  unfold merge
  rcases h with h | h
  · rw [h]
  · cases hm : opts.mergeRoms with
    | none => rfl
    | some mode => simp [h]

/-- A MERGED merge leaves no clones, so a second MERGED pass is an early
return. -/
theorem merge_merged_idempotent (opts : Options) (dat : DAT)
    (hm : opts.mergeRoms = some .MERGED) :
    merge opts (merge opts dat) = merge opts dat := by
  by_cases hi : hasParentCloneInfo dat = true
  · have hgames : (merge opts dat).games =
        (parents dat).map (mergedGame dat.games) := by
      rw [merge_eq_mk opts dat .MERGED hm hi]
      exact flatMap_eq_map_of_singleton (mergeParent_merged dat.games) (parents dat)
    have hinfo : hasParentCloneInfo (merge opts dat) = false := by
      unfold hasParentCloneInfo
      rw [hgames, List.any_eq_false]
      intro g hg
      obtain ⟨cls, -, rfl⟩ := List.mem_map.mp hg
      intro hc
      exact ((Game.isClone_iff _).mp hc) (mergedGame_parent dat.games cls)
    exact merge_eq_self_of_trivial opts _ (Or.inr hinfo)
  · have h1 := merge_eq_self_of_trivial opts dat (Or.inr (by simpa using hi))
    rw [h1]
    exact h1

/-- The core idempotence argument for NONE and SPLIT: the second pass rebuilds
exactly the same classes and leaves every processed game unchanged. -/
theorem merge_idempotent_aux (opts : Options) (dat : DAT) (mode : MergeMode)
    (hm : opts.mergeRoms = some mode) (hsm : mode = .NONE ∨ mode = .SPLIT)
    (hi : hasParentCloneInfo dat = true)
    (hnames : (dat.games.map Game.name).Nodup)
    (hroms : ∀ g ∈ dat.games, (g.roms.map ROM.name).Nodup) :
    merge opts (merge opts dat) = merge opts dat := by
  have hmodeM : mode ≠ .MERGED := by
    rcases hsm with h | h <;> subst h <;> intro hc <;> cases hc
  have hperm := merge_games_perm opts dat mode hm hmodeM hi hnames
  have hfid : ∀ g, SameIdentity g (procGame mode dat.games g) :=
    procGame_identity mode dat.games
  have hbridge : ∀ n, lookupGame (merge opts dat).games n =
      (lookupGame dat.games n).map (procGame mode dat.games) :=
    fun n => lookupGame_of_perm_map _ _ _ hperm (fun g => (hfid g).1) hnames n
  have hpass2 : ∀ g : Game, procGame mode (merge opts dat).games
      (procGame mode dat.games g) = procGame mode dat.games g := by
    intro g
    rcases hsm with h | h <;> subst h
    · exact procGame_pass2_id_none dat _ hbridge hroms g
    · exact procGame_pass2_id_split dat _ hbridge hroms g
  have e1 := merge_eq_mk opts dat mode hm hi
  have hinfo1 : hasParentCloneInfo (merge opts dat) = true := by
    unfold hasParentCloneInfo
    rw [any_isClone_perm (merge opts dat).games dat.games _ hperm
      (fun g => (hfid g).2.1)]
    exact hi
  have e2 := merge_eq_mk opts (merge opts dat) mode hm hinfo1
  -- the block decomposition of the merged game list
  have hps : ∀ p ∈ (firstOccurrences (dat.games.map (classKey dat.games))).map
      (fun k => (k, mergeParent mode dat.games
        (dat.games.filter (fun g => classKey dat.games g = k)))),
      ∃ k, k ∈ firstOccurrences (dat.games.map (classKey dat.games)) ∧
        p = (k, mergeParent mode dat.games
          (dat.games.filter (fun g => classKey dat.games g = k))) := by
    intro p hp
    obtain ⟨k, hk, rfl⟩ := List.mem_map.mp hp
    exact ⟨k, hk, rfl⟩
  have hpsfst : (((firstOccurrences (dat.games.map (classKey dat.games))).map
      (fun k => (k, mergeParent mode dat.games
        (dat.games.filter (fun g => classKey dat.games g = k))))).map
      Prod.fst) = firstOccurrences (dat.games.map (classKey dat.games)) := by
    rw [List.map_map]
    exact List.map_id _
  have hpssnd : (((firstOccurrences (dat.games.map (classKey dat.games))).map
      (fun k => (k, mergeParent mode dat.games
        (dat.games.filter (fun g => classKey dat.games g = k))))).map
      Prod.snd) = (parents dat).map (mergeParent mode dat.games) := by
    unfold parents
    rw [List.map_map, List.map_map]
    rfl
  have hG : (merge opts dat).games =
      ((((firstOccurrences (dat.games.map (classKey dat.games))).map
        (fun k => (k, mergeParent mode dat.games
          (dat.games.filter (fun g => classKey dat.games g = k))))).map
        Prod.snd)).flatten := by
    rw [e1, hpssnd]
    exact List.flatMap_def _ _
  have hclsmem : ∀ k ∈ firstOccurrences (dat.games.map (classKey dat.games)),
      (dat.games.filter (fun g => classKey dat.games g = k)) ∈ parents dat := by
    intro k hk
    unfold parents
    exact List.mem_map_of_mem _ hk
  have hclsne : ∀ k ∈ firstOccurrences (dat.games.map (classKey dat.games)),
      dat.games.filter (fun g => classKey dat.games g = k) ≠ [] := by
    intro k hk
    rw [firstOccurrences_mem] at hk
    obtain ⟨g, hg, hκ⟩ := List.mem_map.mp hk
    exact List.ne_nil_of_mem (List.mem_filter.mpr ⟨hg, by simp [hκ]⟩)
  have hblockmem : ∀ k ∈ firstOccurrences (dat.games.map (classKey dat.games)),
      ∀ g' ∈ mergeParent mode dat.games
        (dat.games.filter (fun g => classKey dat.games g = k)),
      ∃ c, c ∈ dat.games.filter (fun g => classKey dat.games g = k) ∧
        g' = procGame mode dat.games c := by
    intro k hk g' hg'
    have := mergeParent_mem_processed mode hmodeM dat.games _ g' hg'
    rw [processGames_eq_map] at this
    obtain ⟨c, hc, rfl⟩ := List.mem_map.mp this
    exact ⟨c, hc, rfl⟩
  have hconst : ∀ p ∈ (firstOccurrences (dat.games.map (classKey dat.games))).map
      (fun k => (k, mergeParent mode dat.games
        (dat.games.filter (fun g => classKey dat.games g = k)))),
      ∀ g' ∈ p.2, classKey (merge opts dat).games g' = p.1 := by
    intro p hp g' hg'
    obtain ⟨k, hk, rfl⟩ := hps p hp
    obtain ⟨c, hc, rfl⟩ := hblockmem k hk g' hg'
    have hbr := classKey_bridge (merge opts dat).games dat.games _ hperm
      (fun g => (hfid g).1) (hfid c)
    rw [hbr]
    simpa using (List.mem_filter.mp hc).2
  have hne : ∀ p ∈ (firstOccurrences (dat.games.map (classKey dat.games))).map
      (fun k => (k, mergeParent mode dat.games
        (dat.games.filter (fun g => classKey dat.games g = k)))),
      p.2 ≠ [] := by
    intro p hp
    obtain ⟨k, hk, rfl⟩ := hps p hp
    obtain ⟨hnd4, hone4⟩ := processGames_class_facts mode dat hnames _ (hclsmem k hk)
    have hpm := mergeParent_perm_processed mode hmodeM dat.games _ hnd4 hone4
    intro hnil
    have hnil' : mergeParent mode dat.games
        (dat.games.filter (fun g => classKey dat.games g = k)) = [] := hnil
    have hlen := hpm.length_eq
    rw [hnil'] at hlen
    rw [processGames_eq_map, List.length_map] at hlen
    simp only [List.length_nil] at hlen
    have := List.length_pos_of_ne_nil (hclsne k hk)
    omega
  have hndfst : ((((firstOccurrences (dat.games.map (classKey dat.games))).map
      (fun k => (k, mergeParent mode dat.games
        (dat.games.filter (fun g => classKey dat.games g = k))))).map
      Prod.fst)).Nodup := by
    rw [hpsfst]
    exact firstOccurrences_nodup _
  have hkeys1 : firstOccurrences ((merge opts dat).games.map
      (classKey (merge opts dat).games)) =
      firstOccurrences (dat.games.map (classKey dat.games)) := by
    unfold firstOccurrences
    rw [congrArg (List.map (classKey (merge opts dat).games)) hG]
    rw [firstOccurrencesAux_blocks (classKey (merge opts dat).games) _ []
      hconst hne hndfst (by simp)]
    exact hpsfst
  have hfilters : ∀ k ∈ firstOccurrences (dat.games.map (classKey dat.games)),
      (merge opts dat).games.filter
        (fun g => classKey (merge opts dat).games g = k) =
      mergeParent mode dat.games
        (dat.games.filter (fun g => classKey dat.games g = k)) := by
    intro k hk
    rw [congrArg (List.filter
      (fun g => classKey (merge opts dat).games g = k)) hG]
    exact filter_flatten_blocks (classKey (merge opts dat).games) _ hconst
      hndfst k _ (List.mem_map_of_mem _ hk)
  have hparents1 : parents (merge opts dat) =
      (parents dat).map (mergeParent mode dat.games) := by
    show (firstOccurrences ((merge opts dat).games.map
        (classKey (merge opts dat).games))).map
      (fun k => (merge opts dat).games.filter
        (fun g => classKey (merge opts dat).games g = k)) = _
    rw [hkeys1]
    rw [List.map_congr_left (fun k hk => hfilters k hk)]
    unfold parents
    rw [List.map_map]
    rfl
  have hblockid : ∀ cls ∈ parents dat,
      mergeParent mode (merge opts dat).games
        (mergeParent mode dat.games cls) = mergeParent mode dat.games cls := by
    intro cls hcls
    apply mergeParent_pass2_id mode hmodeM _ dat.games cls
    intro g' hg'
    have := mergeParent_mem_processed mode hmodeM dat.games cls g' hg'
    rw [processGames_eq_map] at this
    obtain ⟨c, -, rfl⟩ := List.mem_map.mp this
    exact hpass2 c
  have hGames : (parents (merge opts dat)).flatMap
      (mergeParent mode (merge opts dat).games) = (merge opts dat).games := by
    rw [hparents1, List.flatMap_map]
    have : (parents dat).flatMap (fun cls =>
        mergeParent mode (merge opts dat).games
          (mergeParent mode dat.games cls)) =
        (parents dat).flatMap (mergeParent mode dat.games) := by
      rw [List.flatMap_def, List.flatMap_def]
      congr 1
      exact List.map_congr_left hblockid
    rw [this, e1]
  rw [e2]
  have hH : ({ (merge opts dat).header with
      romNamesContainDirectories := mode = .MERGED } : Header) =
      (merge opts dat).header := by
    rw [e1]
  rw [hH, hGames]

/-! ## Basic facts about the embedding -/

/-- A ROM hash code always contains separator bars, hence is never the empty
string (so the JavaScript falsy test on a present map entry never fires). -/
theorem ROM.hashCode_ne_empty (r : ROM) : r.hashCode ≠ "" := by
  intro h
  have h1 : r.hashCode.length = 0 := by rw [h]; rfl
  unfold ROM.hashCode at h1
  simp only [String.length_append] at h1
  have h2 : ("|" : String).length = 1 := rfl
  omega

/-! ## Claim C7: the merge transform is the identity without a mode or
without parent/clone info -/

/-- C7: for every DAT, if the merge mode option is absent, or the DAT lacks
parent/clone metadata, `DATMergerSplitter.merge` returns the input DAT itself
(same header, same games, same order). -/
theorem merge_unchanged_without_mode_or_info (opts : Options) (dat : DAT)
    (h : opts.mergeRoms = none ∨ hasParentCloneInfo dat = false) :
    merge opts dat = dat :=
  merge_eq_self_of_trivial opts dat h

/-- Witness for C7 at a concrete options/DAT pair. -/
theorem merge_unchanged_without_mode_or_info_witness :
    merge {} { games := [{ name := "A" }] } = { games := [{ name := "A" }] } :=
  merge_unchanged_without_mode_or_info {} { games := [{ name := "A" }] }
    (Or.inl rfl)

/-! ## Claim C10: the two fixdat revisions select the same games -/

theorem any_map_general (f : α → β) (l : List α) (p : β → Bool) :
    (l.map f).any p = l.any (fun a => p (f a)) := by
  induction l with
  | nil => rfl
  | cons a as ih => simp only [List.map_cons, List.any_cons, ih]

theorem any_fst_mapSet_update (m : List (String × Bool)) (k k' : String)
    (v : Bool) :
    (m.map (fun e => if e.1 = k then (e.1, v) else e)).any
        (fun e => e.1 = k') = m.any (fun e => e.1 = k') := by
  induction m with
  | nil => rfl
  | cons e es ih =>
    simp only [List.map_cons, List.any_cons]
    rw [ih]
    by_cases he : e.1 = k
    · rw [if_pos he]
    · rw [if_neg he]

theorem mapHas_mapSet (m : List (String × Bool)) (k k' : String) (v : Bool) :
    mapHas (mapSet m k v) k' = (mapHas m k' || decide (k = k')) := by
  unfold mapHas mapSet
  split
  · rename_i hany
    rw [any_fst_mapSet_update]
    by_cases hk : k = k'
    · subst hk
      rw [hany, decide_eq_true rfl, Bool.true_or]
    · rw [decide_eq_false hk, Bool.or_false]
  · simp only [List.any_append, List.any_cons, List.any_nil, Bool.or_false]

theorem mapHas_foldl_mapSet (roms : List ROM) (m : List (String × Bool))
    (k : String) :
    mapHas (roms.foldl (fun acc rom => mapSet acc rom.hashCode true) m) k =
      (mapHas m k || roms.any (fun rom => rom.hashCode = k)) := by
  induction roms generalizing m with
  | nil => simp
  | cons r rs ih =>
    simp only [List.foldl_cons, List.any_cons]
    rw [ih, mapHas_mapSet]
    cases mapHas m k <;> cases hr : decide (r.hashCode = k) <;> simp [hr]

theorem mapHas_writtenOld (ptc : List (String × List ReleaseCandidate))
    (k : String) :
    mapHas (writtenRomHashCodesOld ptc) k =
      (writtenRomHashCodes ptc).contains k := by
  rw [Bool.eq_iff_iff]
  unfold writtenRomHashCodesOld writtenRomHashCodes candidateValues
  rw [mapHas_foldl_mapSet]
  rw [List.contains_eq_any_beq, any_map_general, any_map_general, List.flatMap_id]
  simp only [mapHas, List.any_nil, Bool.false_or, List.any_eq_true, beq_iff_eq,
    decide_eq_true_eq]
  constructor
  · rintro ⟨rwf, hmem, hk⟩
    exact ⟨rwf, hmem, hk.symm⟩
  · rintro ⟨rwf, hmem, hk⟩
    exact ⟨rwf, hmem, hk.symm⟩

/-- C10: the newer `Set`-based and older `Map`-based `FixdatCreator`
implementations select exactly the same games with missing ROMs, in the same
order, for every original DAT and parents-to-candidates map. -/
theorem fixdat_revisions_agree (dat : DAT)
    (ptc : List (String × List ReleaseCandidate)) :
    gamesWithMissingRomsOld dat ptc = gamesWithMissingRoms dat ptc := by
  unfold gamesWithMissingRomsOld gamesWithMissingRoms
  apply List.filter_congr
  intro g _
  have hall : g.roms.all
      (fun rom => mapHas (writtenRomHashCodesOld ptc) rom.hashCode) =
      g.roms.all
        (fun rom => (writtenRomHashCodes ptc).contains rom.hashCode) := by
    rw [Bool.eq_iff_iff]
    simp only [List.all_eq_true]
    constructor <;> intro h r hr
    · rw [← mapHas_writtenOld]; exact h r hr
    · rw [mapHas_writtenOld]; exact h r hr
  rw [hall]

/-! ## Claim C1: fixdat soundness, completeness and the empty case -/

/-- C1: a game is selected for the fixdat iff not every one of its ROM hash
codes lies in the written set; every selected game has a missing ROM, every
unselected game has all ROMs written, and when nothing is missing the
generator returns the "no fixdat" result (`undefined`). -/
theorem fixdat_missing_characterization (opts : Options) (dat : DAT)
    (ptc : List (String × List ReleaseCandidate)) (hopt : opts.fixdat = true) :
    (∀ g, g ∈ gamesWithMissingRoms dat ptc ↔
        g ∈ dat.games ∧
          ¬∀ r ∈ g.roms, r.hashCode ∈ writtenRomHashCodes ptc) ∧
    (∀ g ∈ gamesWithMissingRoms dat ptc,
        ∃ r ∈ g.roms, r.hashCode ∉ writtenRomHashCodes ptc) ∧
    (∀ g ∈ dat.games, g ∉ gamesWithMissingRoms dat ptc →
        ∀ r ∈ g.roms, r.hashCode ∈ writtenRomHashCodes ptc) ∧
    (gamesWithMissingRoms dat ptc = [] → fixdatCreate opts dat ptc = none) ∧
    (gamesWithMissingRoms dat ptc ≠ [] →
        fixdatCreate opts dat ptc = some (gamesWithMissingRoms dat ptc)) := by
  have hmem : ∀ g, g ∈ gamesWithMissingRoms dat ptc ↔
      g ∈ dat.games ∧ ¬∀ r ∈ g.roms, r.hashCode ∈ writtenRomHashCodes ptc := by
    intro g
    unfold gamesWithMissingRoms
    rw [List.mem_filter]
    apply and_congr_right
    intro _
    simp only [Bool.not_eq_true', List.all_eq_false]
    constructor
    · rintro ⟨r, hr, hnp⟩
      intro hall
      exact hnp (List.elem_iff.mpr (hall r hr))
    · intro hx
      push_neg at hx
      obtain ⟨r, hr, hnotin⟩ := hx
      exact ⟨r, hr, fun hc => hnotin (List.elem_iff.mp hc)⟩
  refine ⟨hmem, ?_, ?_, ?_, ?_⟩
  · intro g hg
    have := ((hmem g).mp hg).2
    rw [not_forall] at this
    obtain ⟨r, hr⟩ := this
    rw [Classical.not_imp] at hr
    exact ⟨r, hr.1, hr.2⟩
  · intro g hg hnot r hr
    by_contra hcon
    exact hnot ((hmem g).mpr ⟨hg, fun hall => hcon (hall r hr)⟩)
  · intro hempty
    unfold fixdatCreate
    rw [hopt, hempty]
    rfl
  · intro hne
    unfold fixdatCreate
    rw [hopt]
    simp only [Bool.not_true, Bool.false_eq_true, if_false]
    rw [if_neg (by simpa [List.length_eq_zero] using hne)]

/-- Witness for C1: a DAT with one found and one missing game. -/
theorem fixdat_missing_characterization_witness :
    fixdatCreate { fixdat := true }
        { games := [{ name := "found", roms := [{ name := "a", fp := "H1" }] },
                    { name := "lost", roms := [{ name := "b", fp := "H2" }] }] }
        [("p", [{ romsWithFiles := [{ rom := { name := "a", fp := "H1" } }] }])] =
      some [{ name := "lost", roms := [{ name := "b", fp := "H2" }] }] :=
  (fixdat_missing_characterization { fixdat := true }
      { games := [{ name := "found", roms := [{ name := "a", fp := "H1" }] },
                  { name := "lost", roms := [{ name := "b", fp := "H2" }] }] }
      [("p", [{ romsWithFiles := [{ rom := { name := "a", fp := "H1" } }] }])]
      rfl).2.2.2.2 (by decide)

/-! ## Claim C2: the ROM diff rule and the SPLIT scenario -/

/-- The parent of the spec's SPLIT scenario 3. -/
def splitExampleParent : Game :=
  { name := "P",
    roms := [{ name := "a", fp := "H1" }, { name := "b", fp := "H2" }] }

/-- The clone of the spec's SPLIT scenario 3. -/
def splitExampleClone : Game :=
  { name := "C", parent := "P",
    roms := [{ name := "a", fp := "H1" }, { name := "b", fp := "H3" },
             { name := "c", fp := "H4" }] }

/-- The DAT of the spec's SPLIT scenario 3. -/
def splitExampleDat : DAT := { games := [splitExampleParent, splitExampleClone] }

/-- C2: the ROM diff keeps exactly the subject ROMs whose effective name
`merge ?? name` is unmapped in the reference game's name-to-hash map or maps
to a different hash code; and in the SPLIT scenario, parent `P` with
`[(a,H1),(b,H2)]` and clone `C` with `[(a,H1),(b,H3),(c,H4)]` leave `C` with
`[(b,H3),(c,H4)]`. -/
theorem diffGameRoms_characterization :
    (∀ (parent child : Game) (r : ROM),
      r ∈ diffGameRoms parent child ↔
        r ∈ child.roms ∧
          (parent.romNamesToHashCodes (r.merge.getD r.name) = none ∨
            ∃ h, parent.romNamesToHashCodes (r.merge.getD r.name) = some h ∧
              h ≠ r.hashCode)) ∧
    (merge { mergeRoms := some .SPLIT } splitExampleDat).games =
      [{ name := "P",
         roms := [{ name := "a", fp := "H1" }, { name := "b", fp := "H2" }] },
       { name := "C", parent := "P",
         roms := [{ name := "b", fp := "H3" }, { name := "c", fp := "H4" }] }] := by
  constructor
  · intro parent child r
    unfold diffGameRoms
    rw [List.mem_filter]
    apply and_congr_right
    intro _
    cases hl : parent.romNamesToHashCodes (r.merge.getD r.name) with
    | none => simp [hl]
    | some h =>
      simp only [hl, Option.some.injEq, reduceCtorEq, false_or,
        Bool.or_eq_true, decide_eq_true_eq, bne_iff_ne]
      constructor
      · rintro (rfl | hne)
        · exact ⟨"", rfl, fun hcontra => ROM.hashCode_ne_empty r hcontra.symm⟩
        · exact ⟨h, rfl, hne⟩
      · rintro ⟨h', hh', hne⟩
        cases hh'
        exact Or.inr hne
  · decide

/-! ## Claim C9: the path sanitizer rules and test vectors -/

/-- C9: the path sanitizer replaces every illegal character by underscore; on
a backslash-separator platform the first colon of a leading drive-letter
context is preserved and the remaining colons become semicolons; the two
quoted test vectors behave as stated. -/
theorem makeLegal_rules :
    (makeLegal "Dwayne \"The Rock\" Jonson.rom" "/" =
      "Dwayne _The Rock_ Jonson.rom") ∧
    (makeLegal "C:\\ro:ms\\fi:le.rom" "\\" = "C:\\ro;ms\\fi;le.rom") ∧
    (∀ p : String, makeLegal p "/" = String.mk (p.data.map legalizeChar)) ∧
    (∀ (p : String) (c : Char) (rest : List Char), p.data = c :: ':' :: rest →
      c.isAlpha = true →
      makeLegal p "\\" = String.mk (c :: ':' :: rest.map legalizeCharWin)) ∧
    (∀ p : String,
      (∀ (c : Char) (rest : List Char), p.data = c :: ':' :: rest →
        c.isAlpha = false) →
      makeLegal p "\\" = String.mk (p.data.map legalizeCharWin)) := by
  refine ⟨by decide, by decide, ?_, ?_, ?_⟩
  · intro p
    unfold makeLegal
    rw [if_neg (by decide)]
  · intro p c rest hd ha
    unfold makeLegal
    rw [if_pos rfl, hd]
    simp [ha]
  · intro p hnd
    unfold makeLegal
    rw [if_pos rfl]
    split
    · rename_i c rest heq
      have hfa := hnd c rest heq
      rw [if_neg (by simp [hfa])]
    · rfl

/-- Witness for C9, exercising the universally quantified clauses at concrete
paths. -/
theorem makeLegal_rules_witness :
    makeLegal "a:b" "/" = String.mk ("a:b".data.map legalizeChar) ∧
    makeLegal "C:\\x" "\\" =
      String.mk ('C' :: ':' :: "\\x".data.map legalizeCharWin) ∧
    makeLegal "7:x" "\\" = String.mk ("7:x".data.map legalizeCharWin) :=
  ⟨makeLegal_rules.2.2.1 "a:b",
   makeLegal_rules.2.2.2.1 "C:\\x" 'C' "\\x".data (by decide) (by decide),
   makeLegal_rules.2.2.2.2 "7:x" (by
     intro c rest h
     have h' : ['7', ':', 'x'] = c :: ':' :: rest := h
     simp only [List.cons.injEq] at h'
     obtain ⟨hc, -⟩ := h'
     rw [← hc]
     decide)⟩

/-! ## Claim C5: sanitization order and the hyphen substitution

The source computes `rom.getName().replace('-', '__')`, and the JavaScript
`String#replace` with a string pattern substitutes only the FIRST occurrence;
the claimed every-occurrence substitution produces a different ROM order. -/

/-- The sanitization comparator as the claim words it: every hyphen doubled
to underscores before natural-numeric comparison. -/
def replaceAllDash (l : List Char) : List Char :=
  l.flatMap (fun c => if c = '-' then ['_', '_'] else [c])

/-- The claimed comparator over `replaceAllDash` names. -/
def romSortFuncClaimed (a b : ROM) : Ordering :=
  natCompare (replaceAllDash a.name.data) (replaceAllDash b.name.data)

/-- The game of the C5 counterexample: two ROMs named `-_` and `--`. -/
def hyphenGame : Game :=
  { name := "G",
    roms := [{ name := "-_", fp := "h2" }, { name := "--", fp := "h1" }] }

/-- A DAT containing `hyphenGame` (plus a clone so the merger runs). -/
def hyphenDat : DAT :=
  { games := [hyphenGame, { name := "X", parent := "G" }] }

/-- C5 counterexample: on `hyphenDat` the merger (first-occurrence
substitution, as JavaScript `replace` does) sorts `--` before `-_`, while the
claimed every-occurrence substitution sorts `-_` before `--`; the claim is
false at this input. -/
theorem sanitize_hyphen_counterexample :
    (merge { mergeRoms := some .NONE } hyphenDat).games.map
        (fun g => g.roms.map ROM.name) = [["--", "-_"], []] ∧
    sortByCmp romSortFuncClaimed (dedupByKey ROM.name hyphenGame.roms) =
      [{ name := "-_", fp := "h2" }, { name := "--", fp := "h1" }] := by
  constructor
  · decide
  · decide

/-- A game with two ROMs sharing a name but differing in fingerprint, used to
exercise the first-occurrence clause of the C5 amendment. -/
def dupNameGame : Game :=
  { name := "D",
    roms := [{ name := "a", fp := "f1" }, { name := "a", fp := "f2" }] }

/-- C5 amended: sanitization drops later duplicate ROM names (each surviving
ROM is exactly the FIRST input ROM carrying its name, as the find? clause
states) and sorts by the natural-numeric comparator over the ROM name with its
FIRST hyphen (not every hyphen) replaced by two underscores. -/
theorem sanitizeGame_characterization (g : Game) :
    ((sanitizeGame g).roms.Sorted (cmpLE romSortFunc)) ∧
    (((sanitizeGame g).roms.map ROM.name).Nodup) ∧
    (∀ r ∈ (sanitizeGame g).roms, r ∈ g.roms) ∧
    (∀ r ∈ (sanitizeGame g).roms,
      g.roms.find? (fun r' => r'.name = r.name) = some r) ∧
    (∀ r ∈ g.roms, ∃ r' ∈ (sanitizeGame g).roms, r'.name = r.name) := by
  refine ⟨?_, ?_, ?_, ?_, ?_⟩
  · exact sortByCmp_sorted romSortFunc_isKeyCmp _
  · have hperm := (sortByCmp_perm romSortFunc
      (dedupByKey ROM.name g.roms)).map ROM.name
    exact hperm.nodup_iff.mpr (dedupByKey_keys_nodup ROM.name g.roms)
  · intro r hr
    have hroms : (sanitizeGame g).roms =
        sortByCmp romSortFunc (dedupByKey ROM.name g.roms) := rfl
    rw [hroms, sortByCmp_mem] at hr
    exact dedupByKey_subset ROM.name g.roms r hr
  · intro r hr
    have hroms : (sanitizeGame g).roms =
        sortByCmp romSortFunc (dedupByKey ROM.name g.roms) := rfl
    rw [hroms, sortByCmp_mem] at hr
    exact dedupByKey_find_first ROM.name g.roms r hr
  · intro r hr
    have hroms : (sanitizeGame g).roms =
        sortByCmp romSortFunc (dedupByKey ROM.name g.roms) := rfl
    obtain ⟨r', hr', hname⟩ := dedupByKey_mem_of_key ROM.name g.roms r hr
    refine ⟨r', ?_, hname⟩
    rw [hroms, sortByCmp_mem]
    exact hr'

/-- Witness for C5 (amended): on a game whose two ROMs share a name the
surviving ROM is the first input occurrence (fingerprint f1, not f2), and the
sortedness and name-coverage clauses hold at the counterexample game. -/
theorem sanitizeGame_characterization_witness :
    ((sanitizeGame hyphenGame).roms.Sorted (cmpLE romSortFunc)) ∧
    (dupNameGame.roms.find?
      (fun r' => r'.name = ROM.name { name := "a", fp := "f1" }) =
        some { name := "a", fp := "f1" }) ∧
    (∃ r' ∈ (sanitizeGame hyphenGame).roms,
      r'.name = ROM.name { name := "--", fp := "h1" }) :=
  ⟨(sanitizeGame_characterization hyphenGame).1,
   (sanitizeGame_characterization dupNameGame).2.2.2.1
     { name := "a", fp := "f1" } (by decide),
   (sanitizeGame_characterization hyphenGame).2.2.2.2
     { name := "--", fp := "h1" } (by decide)⟩

/-! ## Claim C6: the file indexer -/

/-- Lemma: `find?` on the first component commutes with any first-component-preserving
per-entry update of an association list. -/
theorem find?_fst_of_map_update {β : Type} (upd : (String × β) → (String × β))
    (hfst : ∀ e, (upd e).1 = e.1) (m : List (String × β)) (k : String) :
    (m.map upd).find? (fun e => e.1 = k) =
      (m.find? (fun e => e.1 = k)).map upd := by
  induction m with
  | nil => rfl
  | cons e es ih =>
    simp only [List.map_cons]
    by_cases he : e.1 = k
    · rw [List.find?_cons_of_pos _ (by simp [hfst, he]),
        List.find?_cons_of_pos _ (by simp [he])]
      rfl
    · rw [List.find?_cons_of_neg _ (by simp [hfst, he]),
        List.find?_cons_of_neg _ (by simp [he]), ih]

theorem bucket_setFileInMap (m : List (String × List CandidateFile))
    (k : String) (f : CandidateFile) (k' : String) :
    bucket (setFileInMap m k f) k' =
      if k = k' then bucket m k' ++ [f] else bucket m k' := by
  unfold setFileInMap
  split
  · rename_i hany
    have hfind := find?_fst_of_map_update
      (fun e => if e.1 = k then (e.1, e.2 ++ [f]) else e)
      (fun e => by
        show (if e.1 = k then (e.1, e.2 ++ [f]) else e).1 = e.1
        split <;> rfl) m k'
    cases hf : m.find? (fun e => e.1 = k') with
    | none =>
      have hne : k ≠ k' := by
        intro hkk
        subst hkk
        rw [List.find?_eq_none] at hf
        rw [List.any_eq_true] at hany
        obtain ⟨e, he, hek⟩ := hany
        exact hf e he hek
      have hb1 : bucket
          (m.map (fun e => if e.1 = k then (e.1, e.2 ++ [f]) else e)) k' = [] := by
        unfold bucket
        rw [hfind, hf]
        rfl
      have hbm : bucket m k' = [] := by
        unfold bucket
        rw [hf]
        rfl
      rw [hb1, if_neg hne, hbm]
    | some e =>
      have hek : e.1 = k' := by simpa using List.find?_some hf
      have hb1 : bucket
          (m.map (fun e => if e.1 = k then (e.1, e.2 ++ [f]) else e)) k' =
          (if e.1 = k then (e.1, e.2 ++ [f]) else e).2 := by
        unfold bucket
        rw [hfind, hf]
        rfl
      have hbm : bucket m k' = e.2 := by
        unfold bucket
        rw [hf]
        rfl
      rw [hb1, hbm]
      by_cases hkk : k = k'
      · rw [if_pos hkk, if_pos (hek.trans hkk.symm)]
      · rw [if_neg hkk, if_neg (fun h => hkk (h.symm.trans hek))]
  · rename_i hany
    cases hf : m.find? (fun e => e.1 = k') with
    | some e =>
      have hek : e.1 = k' := by simpa using List.find?_some hf
      have hne : k ≠ k' := by
        intro hkk
        subst hkk
        exact hany (List.any_eq_true.mpr ⟨e, List.mem_of_find?_eq_some hf,
          by simp [hek]⟩)
      have hb1 : bucket (m ++ [(k, [f])]) k' = e.2 := by
        unfold bucket
        rw [List.find?_append, hf]
        rfl
      have hbm : bucket m k' = e.2 := by
        unfold bucket
        rw [hf]
        rfl
      rw [hb1, if_neg hne, hbm]
    | none =>
      have hbm : bucket m k' = [] := by
        unfold bucket
        rw [hf]
        rfl
      by_cases hkk : k = k'
      · subst hkk
        have hbb : bucket (m ++ [(k, [f])]) k = [f] := by
          unfold bucket
          rw [List.find?_append, hf, List.find?_cons_of_pos _ (by simp)]
          rfl
        rw [hbb, if_pos rfl, hbm]
        rfl
      · have hbb : bucket (m ++ [(k, [f])]) k' = [] := by
          unfold bucket
          rw [List.find?_append, hf, List.find?_cons_of_neg _ (by simp [hkk])]
          rfl
        rw [hbb, if_neg hkk, hbm]

/-- The files a single indexing pass inserts under `key`, in insertion order:
each file goes under its with-header hash code and, when it has a header,
additionally under its without-header hash code. -/
def insertedUnder (key : String) (files : List CandidateFile) :
    List CandidateFile :=
  files.flatMap (fun f =>
    (if f.hashCodeWithHeader = key then [f] else []) ++
      (if f.hasHeader = true ∧ f.hashCodeWithoutHeader = key then [f] else []))

theorem bucket_indexInsert_aux (files : List CandidateFile)
    (m : List (String × List CandidateFile)) (k : String) :
    bucket
        (files.foldl
          (fun m file =>
            let m1 := setFileInMap m file.hashCodeWithHeader file
            if file.hasHeader then
              setFileInMap m1 file.hashCodeWithoutHeader file
            else m1)
          m) k =
      bucket m k ++ insertedUnder k files := by
  induction files generalizing m with
  | nil => simp [insertedUnder]
  | cons f fs ih =>
    rw [List.foldl_cons, ih]
    have hstep : bucket
        (let m1 := setFileInMap m f.hashCodeWithHeader f
          if f.hasHeader then setFileInMap m1 f.hashCodeWithoutHeader f
          else m1) k =
        bucket m k ++ ((if f.hashCodeWithHeader = k then [f] else []) ++
          (if f.hasHeader = true ∧ f.hashCodeWithoutHeader = k then [f] else [])) := by
      dsimp only
      cases hh : f.hasHeader with
      | false =>
        rw [if_neg (by simp [hh]), bucket_setFileInMap]
        simp only [hh, Bool.false_eq_true, false_and, if_false,
          List.append_nil]
        split <;> first | rfl | rw [List.append_nil]
      | true =>
        rw [if_pos (by simp [hh]), bucket_setFileInMap, bucket_setFileInMap]
        simp only [hh, true_and]
        by_cases h1 : f.hashCodeWithHeader = k <;>
          by_cases h2 : f.hashCodeWithoutHeader = k <;>
          simp [h1, h2]
    rw [hstep]
    simp only [insertedUnder, List.flatMap_cons, List.append_assoc]

/-- The indexed bucket of `key` before sorting. -/
theorem bucket_indexInsert (files : List CandidateFile) (k : String) :
    bucket (indexInsert files) k = insertedUnder k files := by
  unfold indexInsert
  rw [bucket_indexInsert_aux]
  rfl

/-- C6: empty input yields an empty map; each file is indexed under its
with-header hash code and, when it has a header, additionally under its
without-header hash code; and every bucket is sorted by the five-step
preference comparator (header-matched form, archive priority, not-in-output,
same-volume, lexicographic path). -/
theorem indexFiles_characterization (opts : Options) (disks : List String)
    (files : List CandidateFile) :
    (files = [] → indexFiles opts disks files = []) ∧
    (∀ key, (bucket (indexFiles opts disks files) key).Perm
        (insertedUnder key files)) ∧
    (∀ key, (bucket (indexFiles opts disks files) key).Sorted
        (cmpLE (fileCompare key opts.outputDirRoot
          (disks.find? (fun mount => opts.outputDirRoot.startsWith mount))))) := by
  by_cases hfe : files = []
  · subst hfe
    refine ⟨fun _ => rfl, ?_, ?_⟩
    · intro key
      have h1 : indexFiles opts disks [] = [] := rfl
      rw [h1]
      exact List.Perm.refl _
    · intro key
      have h1 : indexFiles opts disks [] = [] := rfl
      rw [h1]
      exact List.sorted_nil
  · have hidx : indexFiles opts disks files =
        (indexInsert files).map (fun e => (e.1,
          sortByCmp (fileCompare e.1 opts.outputDirRoot
            (disks.find? (fun mount => opts.outputDirRoot.startsWith mount)))
            e.2)) := by
      unfold indexFiles
      rw [if_neg hfe]
    have hbucket : ∀ key, bucket (indexFiles opts disks files) key =
        sortByCmp (fileCompare key opts.outputDirRoot
          (disks.find? (fun mount => opts.outputDirRoot.startsWith mount)))
          (insertedUnder key files) := by
      intro key
      rw [hidx]
      unfold bucket
      rw [find?_fst_of_map_update
        (fun e => (e.1,
          sortByCmp (fileCompare e.1 opts.outputDirRoot
            (disks.find? (fun mount => opts.outputDirRoot.startsWith mount)))
            e.2))
        (fun e => rfl)]
      cases hf : (indexInsert files).find? (fun e => e.1 = key) with
      | none =>
        have hb : bucket (indexInsert files) key = [] := by
          unfold bucket
          rw [hf]
          rfl
        rw [← bucket_indexInsert files key, hb]
        rfl
      | some e =>
        have hek : e.1 = key := by simpa using List.find?_some hf
        have hb : bucket (indexInsert files) key = e.2 := by
          unfold bucket
          rw [hf]
          rfl
        rw [← bucket_indexInsert files key, hb]
        show sortByCmp (fileCompare e.1 opts.outputDirRoot
            (disks.find? (fun mount => opts.outputDirRoot.startsWith mount)))
            e.2 =
          sortByCmp (fileCompare key opts.outputDirRoot
            (disks.find? (fun mount => opts.outputDirRoot.startsWith mount)))
            e.2
        rw [hek]
    refine ⟨fun h => absurd h hfe, ?_, ?_⟩
    · intro key
      rw [hbucket key]
      exact sortByCmp_perm _ _
    · intro key
      rw [hbucket key]
      exact sortByCmp_sorted (fileCompare_isKeyCmp _ _ _) _

/-- Witness for C6, exercising the empty-input clause and instantiating the
bucket clauses at a concrete key. -/
theorem indexFiles_characterization_witness :
    indexFiles {} [] [] = [] ∧
    (bucket (indexFiles {} [] []) "k").Perm (insertedUnder "k" []) :=
  ⟨(indexFiles_characterization {} [] []).1 rfl,
   (indexFiles_characterization {} [] []).2.1 "k"⟩

/-! ## Claim C4: the MERGED collapse -/

/-- C4: under MERGED every parent class collapses to one machine carrying the
parent's identity; its ROM list is the clone ROMs re-parented with the
`clone\` prefix concatenated with the parent's ROMs and deduplicated by the
(name, size, fingerprint) content hash; the output game count equals the
number of parent classes. -/
theorem merged_mode_collapse (opts : Options) (dat : DAT)
    (hm : opts.mergeRoms = some .MERGED) (hi : hasParentCloneInfo dat = true) :
    (merge opts dat).games.length = (parents dat).length ∧
    (merge opts dat).games = (parents dat).map (mergedGame dat.games) ∧
    (∀ g ∈ (merge opts dat).games, g.isMachine = true) ∧
    (∀ cls ∈ parents dat,
      ((mergedGame dat.games cls).roms.map ROM.hashCode).Nodup ∧
      (∀ r ∈ (mergedGame dat.games cls).roms,
        r ∈ cloneRomsOf ((processGames .MERGED dat.games cls).filter
              (fun g => g.isClone)) ++
            ((((processGames .MERGED dat.games cls).find?
                (fun g => g.isParent)).map Game.roms).getD [])) ∧
      (∀ r ∈ cloneRomsOf ((processGames .MERGED dat.games cls).filter
              (fun g => g.isClone)) ++
            ((((processGames .MERGED dat.games cls).find?
                (fun g => g.isParent)).map Game.roms).getD []),
        ∃ r' ∈ (mergedGame dat.games cls).roms, r'.hashCode = r.hashCode) ∧
      (∀ p, (processGames .MERGED dat.games cls).find? (fun g => g.isParent) =
          some p →
        (mergedGame dat.games cls).name = p.name ∧
        (mergedGame dat.games cls).parent = p.parent ∧
        (mergedGame dat.games cls).bios = p.bios)) := by
  have hgames : (merge opts dat).games = (parents dat).map (mergedGame dat.games) := by
    unfold merge
    rw [hm]
    simp only [hi, Bool.not_true, Bool.false_eq_true, if_false]
    exact flatMap_eq_map_of_singleton (mergeParent_merged dat.games) (parents dat)
  refine ⟨by rw [hgames, List.length_map], hgames, ?_, ?_⟩
  · intro g hg
    rw [hgames] at hg
    obtain ⟨cls, _, rfl⟩ := List.mem_map.mp hg
    rfl
  · intro cls _
    refine ⟨?_, ?_, ?_, ?_⟩
    · exact dedupByKey_keys_nodup ROM.hashCode _
    · intro r hr
      exact dedupByKey_subset ROM.hashCode _ r hr
    · intro r hr
      exact dedupByKey_mem_of_key ROM.hashCode _ r hr
    · intro p hp
      simp only [mergedGame, hp, Option.getD_some]
      exact ⟨trivial, trivial, trivial⟩

/-! ## Claim C3: conservation under NONE

The claim fails on the code: the BIOS-subtraction step runs in every
non-FULLNONMERGED mode, NONE included, so a game with a resolvable BIOS link
loses the shared BIOS ROMs. -/

/-- The C3 counterexample DAT: `B` is a BIOS set with a BIOS-flagged ROM
`(x,H)`, `G` references it and shares that ROM, and `Cl` is a clone so the
merger actually runs. -/
def biosExampleDat : DAT :=
  { games := [
      { name := "B", roms := [{ name := "x", fp := "H", bios := true }] },
      { name := "G", bios := "B",
        roms := [{ name := "x", fp := "H" }, { name := "y", fp := "H2" }] },
      { name := "Cl", parent := "B" }] }

/-- C3 counterexample: merging `biosExampleDat` under NONE preserves the game
count but does NOT preserve every game's (name, fingerprint) ROM set — game
`G` loses `(x, H)` to the BIOS subtraction — so the claim as stated is false
at this input. -/
theorem none_mode_counterexample :
    (merge { mergeRoms := some .NONE } biosExampleDat).games.length =
      biosExampleDat.games.length ∧
    ¬ (∀ g' ∈ (merge { mergeRoms := some .NONE } biosExampleDat).games,
        ∃ g ∈ biosExampleDat.games, g'.name = g.name ∧
          (∀ pr ∈ g'.roms.map (fun r => (r.name, r.fp)),
              pr ∈ g.roms.map (fun r => (r.name, r.fp))) ∧
          (∀ pr ∈ g.roms.map (fun r => (r.name, r.fp)),
              pr ∈ g'.roms.map (fun r => (r.name, r.fp)))) := by
  constructor
  · decide
  · decide

/-- C3 amended: for DATs with pairwise-distinct game names, NONE preserves the
game count, and it preserves the (name, fingerprint) ROM set of every game
that has pairwise-distinct ROM names and no resolvable external BIOS
reference (ordering may change due to sanitisation). -/
theorem none_mode_conservation (opts : Options) (dat : DAT)
    (hm : opts.mergeRoms = some .NONE)
    (hnames : (dat.games.map Game.name).Nodup) :
    ((merge opts dat).games.length = dat.games.length) ∧
    (∀ g' ∈ (merge opts dat).games, ∃ g ∈ dat.games,
      g'.name = g.name ∧
      ((g.roms.map ROM.name).Nodup →
        (g.bios = "" ∨ lookupGame dat.games g.bios = none) →
        (∀ pr ∈ g'.roms.map (fun r => (r.name, r.fp)),
            pr ∈ g.roms.map (fun r => (r.name, r.fp))) ∧
        (∀ pr ∈ g.roms.map (fun r => (r.name, r.fp)),
            pr ∈ g'.roms.map (fun r => (r.name, r.fp))))) ∧
    (∀ g ∈ dat.games, ∃ g' ∈ (merge opts dat).games, g'.name = g.name) := by
  by_cases hi : hasParentCloneInfo dat = true
  · have hperm := merge_games_perm opts dat .NONE hm (by decide) hi hnames
    refine ⟨?_, ?_, ?_⟩
    · rw [hperm.length_eq, List.length_map]
    · intro g' hg'
      rw [hperm.mem_iff] at hg'
      obtain ⟨g, hg, rfl⟩ := List.mem_map.mp hg'
      refine ⟨g, hg, (procGame_identity _ _ g).1, ?_⟩
      intro hnd hb
      have hrp := procGame_none_roms_perm dat.games g hnd hb
      have hprm := hrp.map (fun r => (r.name, r.fp))
      exact ⟨fun pr hpr => hprm.mem_iff.mp hpr,
        fun pr hpr => hprm.mem_iff.mpr hpr⟩
    · intro g hg
      refine ⟨procGame .NONE dat.games g, ?_, (procGame_identity _ _ g).1⟩
      rw [hperm.mem_iff]
      exact List.mem_map_of_mem _ hg
  · have heq := merge_eq_self_of_trivial opts dat (Or.inr (by simpa using hi))
    rw [heq]
    refine ⟨rfl, ?_, ?_⟩
    · intro g' hg'
      exact ⟨g', hg', rfl, fun _ _ => ⟨fun pr hpr => hpr, fun pr hpr => hpr⟩⟩
    · intro g hg
      exact ⟨g, hg, rfl⟩

/-- Witness for C3 (amended) at a concrete clone-bearing DAT. -/
theorem none_mode_conservation_witness :
    (merge { mergeRoms := some .NONE }
        { games := [{ name := "A", roms := [{ name := "r", fp := "h" }] },
                    { name := "c", parent := "A" }] }).games.length =
      ({ games := [{ name := "A", roms := [{ name := "r", fp := "h" }] },
                   { name := "c", parent := "A" }] } : DAT).games.length :=
  (none_mode_conservation { mergeRoms := some .NONE }
      { games := [{ name := "A", roms := [{ name := "r", fp := "h" }] },
                  { name := "c", parent := "A" }] } rfl (by decide)).1

/-- Witness for C4 at the spec's MERGED scenario 4. -/
theorem merged_mode_collapse_witness :
    (merge { mergeRoms := some .MERGED }
        { games := [{ name := "P", roms := [{ name := "a", fp := "H1" }] },
                    { name := "C1", parent := "P",
                      roms := [{ name := "x", fp := "H2" }] },
                    { name := "C2", parent := "P",
                      roms := [{ name := "x", fp := "H2" },
                               { name := "y", fp := "H3" }] }] }).games.length =
      (parents { games := [{ name := "P", roms := [{ name := "a", fp := "H1" }] },
                    { name := "C1", parent := "P",
                      roms := [{ name := "x", fp := "H2" }] },
                    { name := "C2", parent := "P",
                      roms := [{ name := "x", fp := "H2" },
                               { name := "y", fp := "H3" }] }] }).length :=
  (merged_mode_collapse { mergeRoms := some .MERGED }
      { games := [{ name := "P", roms := [{ name := "a", fp := "H1" }] },
                  { name := "C1", parent := "P",
                    roms := [{ name := "x", fp := "H2" }] },
                  { name := "C2", parent := "P",
                    roms := [{ name := "x", fp := "H2" },
                             { name := "y", fp := "H3" }] }] }
      rfl (by decide)).1

/-! ## Claim C8: idempotence of the merge transform

The claim fails for FULLNONMERGED: re-merging re-prepends the device ROMs,
growing the machine's ROM list.  For the other three modes idempotence holds
(given distinct game names and per-game distinct ROM names). -/

/-- The C8 counterexample DAT: machine `M` references device game `D`; `P0`
and its clone `C0` provide the parent/clone info the merger requires. -/
def deviceExampleDat : DAT :=
  { games := [
      { name := "D", isMachine := true, roms := [{ name := "d1", fp := "Hd" }] },
      { name := "M", isMachine := true, deviceRefs := ["D"],
        roms := [{ name := "m1", fp := "Hm" }] },
      { name := "P0" },
      { name := "C0", parent := "P0" }] }

/-- C8 counterexample: applying the merge transform twice under FULLNONMERGED
is not the same as applying it once — the second pass prepends `D`'s ROMs to
`M` again — so the claim as stated is false at this input. -/
theorem merge_not_idempotent_counterexample :
    merge { mergeRoms := some .FULLNONMERGED }
        (merge { mergeRoms := some .FULLNONMERGED } deviceExampleDat) ≠
      merge { mergeRoms := some .FULLNONMERGED } deviceExampleDat := by
  decide

/-- C8 amended: for the modes other than FULLNONMERGED, and DATs whose game
names are pairwise distinct and whose per-game ROM names are pairwise
distinct, applying the merge transform twice yields the same DAT as applying
it once. -/
theorem merge_idempotent_non_full (opts : Options) (dat : DAT)
    (mode : MergeMode) (hm : opts.mergeRoms = some mode)
    (hmode : mode ≠ .FULLNONMERGED)
    (hnames : (dat.games.map Game.name).Nodup)
    (hroms : ∀ g ∈ dat.games, (g.roms.map ROM.name).Nodup) :
    merge opts (merge opts dat) = merge opts dat := by
  by_cases hi : hasParentCloneInfo dat = true
  · cases mode with
    | FULLNONMERGED => exact absurd rfl hmode
    | MERGED => exact merge_merged_idempotent opts dat hm
    | NONE =>
      exact merge_idempotent_aux opts dat .NONE hm (Or.inl rfl) hi hnames hroms
    | SPLIT =>
      exact merge_idempotent_aux opts dat .SPLIT hm (Or.inr rfl) hi hnames hroms
  · have h1 := merge_eq_self_of_trivial opts dat (Or.inr (by simpa using hi))
    rw [h1]
    exact h1

/-- Witness for C8 (amended): a SPLIT double-merge on the spec's scenario-3
DAT equals the single merge. -/
theorem merge_idempotent_non_full_witness :
    merge { mergeRoms := some .SPLIT }
        (merge { mergeRoms := some .SPLIT } splitExampleDat) =
      merge { mergeRoms := some .SPLIT } splitExampleDat :=
  merge_idempotent_non_full { mergeRoms := some .SPLIT } splitExampleDat
    .SPLIT rfl (by decide) (by decide) (by decide)

end Igir
